import Mathlib

/-!
Verification development for the Legal-RAG-Preprocessor repository.

The Python sources modelled here are `13_text_classifier.py` and
`merge_footnotes.py`.  Strings are modelled as `List Char`; Python integers
as `Int` (footnote and page numbers); fallible operations as `Option`.
All definitions are executable and structurally recursive so that concrete
inputs evaluate by `decide` / `rfl`.
-/

namespace LegalRag

set_option maxRecDepth 16384

/-! ## Whitespace classes

`src_ws` is the explicit character set `" \t\n\r"` used by the index
walk-back loop of `search_source_text` (lines 141-167 of
`13_text_classifier.py`).

`re_ws` models the class matched by the regex `\s` (and by `str.strip()` /
`str.isspace()`) in Python 3 for `str` patterns: the ASCII whitespace
characters plus the Unicode white-space code points. -/

def src_ws (c : Char) : Bool :=
  c = ' ' || c = '\t' || c = '\n' || c = '\r'

def re_ws (c : Char) : Bool :=
  c = ' ' || c = '\t' || c = '\n' || c = '\r' || c = '\x0b' || c = '\x0c' ||
  c = '\x1c' || c = '\x1d' || c = '\x1e' || c = '\x1f' ||
  c = '\x85' || c = '\xa0' || c = '\u1680' ||
  ('\u2000' ≤ c && c ≤ '\u200a') ||
  c = '\u2028' || c = '\u2029' || c = '\u202f' || c = '\u205f' || c = '\u3000'

theorem src_ws_imp_re_ws {c : Char} (h : src_ws c = true) : re_ws c = true := by
  simp only [src_ws, Bool.or_eq_true, decide_eq_true_eq] at h
  rcases h with ((h | h) | h) | h <;> subst h <;> decide

/-- If `l.dropWhile p` starts with `d`, then `p d` is false. -/
theorem head_dropWhile_false {α : Type} (p : α → Bool) :
    ∀ (l : List α) {d : α} {rest : List α}, l.dropWhile p = d :: rest → p d = false := by
  intro l
  induction l with
  | nil => intro d rest h; simp [List.dropWhile] at h
  | cons c t ih =>
    intro d rest h
    by_cases hc : p c
    · rw [List.dropWhile_cons_of_pos hc] at h
      exact ih h
    · rw [List.dropWhile_cons_of_neg hc] at h
      cases h
      simpa using hc

/-! ## normalize

Python (line 121-122 of `13_text_classifier.py`):
```
def normalize(s):
    return re.sub(r"\s+", " ", s).strip()
```
`collapse_ws` models `re.sub(r"\s+", " ", s)` (each maximal whitespace run
becomes one space); `py_strip` models `.strip()`.  `collapse_ws` is written
with an `inRun` flag so that it is structurally recursive; the run-skipping
equations are proved below. -/

def collapse_aux : Bool → List Char → List Char
  | _, [] => []
  | inRun, c :: rest =>
    if re_ws c then
      (if inRun then collapse_aux true rest else ' ' :: collapse_aux true rest)
    else c :: collapse_aux false rest

def collapse_ws (l : List Char) : List Char := collapse_aux false l

def strip_left (l : List Char) : List Char := l.dropWhile re_ws

def strip_right (l : List Char) : List Char := (l.reverse.dropWhile re_ws).reverse

def py_strip (l : List Char) : List Char := strip_right (strip_left l)

def normalize (l : List Char) : List Char := py_strip (collapse_ws l)

/-! ### Run-skipping equations for `collapse_ws` -/

theorem collapse_aux_true_eq (l : List Char) :
    collapse_aux true l = collapse_ws (l.dropWhile re_ws) := by
  induction l with
  | nil => rfl
  | cons c rest ih =>
    by_cases h : re_ws c
    · simp [collapse_aux, h, List.dropWhile, ih]
    · simp [collapse_aux, collapse_ws, h, List.dropWhile]

theorem collapse_ws_nil : collapse_ws [] = [] := rfl

theorem collapse_ws_cons_neg {c : Char} (h : ¬ re_ws c) (rest : List Char) :
    collapse_ws (c :: rest) = c :: collapse_ws rest := by
  simp [collapse_ws, collapse_aux, h]

theorem collapse_ws_cons_pos {c : Char} (h : re_ws c) (rest : List Char) :
    collapse_ws (c :: rest) = ' ' :: collapse_ws (rest.dropWhile re_ws) := by
  simp [collapse_ws, collapse_aux, h, collapse_aux_true_eq]

/-- Dropping the leading whitespace run before collapsing is the same as
collapsing and then stripping the leading (single-space) run. -/
theorem collapse_ws_dropWhile (l : List Char) :
    collapse_ws (l.dropWhile re_ws) = strip_left (collapse_ws l) := by
  cases l with
  | nil => rfl
  | cons c rest =>
    by_cases h : re_ws c
    · rw [List.dropWhile_cons_of_pos h, collapse_ws_cons_pos h]
      have hsp : re_ws ' ' = true := by decide
      simp only [strip_left, List.dropWhile_cons_of_pos hsp]
      cases hr : rest.dropWhile re_ws with
      | nil => rfl
      | cons d rest2 =>
        have hd : re_ws d = false := head_dropWhile_false re_ws rest hr
        rw [collapse_ws_cons_neg (by simp [hd])]
        rw [List.dropWhile_cons_of_neg (by simp [hd])]
    · rw [List.dropWhile_cons_of_neg h, collapse_ws_cons_neg h]
      simp only [strip_left, collapse_ws_cons_neg h]
      rw [List.dropWhile_cons_of_neg (by simpa using h)]

/-- Two adjacent characters of a collapse are never both whitespace. -/
theorem collapse_ws_chain (l : List Char) :
    (collapse_ws l).Chain' (fun a b => ¬ (re_ws a ∧ re_ws b)) := by
  suffices h : ∀ (n : Nat) (l : List Char), l.length ≤ n →
      (collapse_ws l).Chain' (fun a b => ¬ (re_ws a ∧ re_ws b)) from
    h l.length l le_rfl
  intro n
  induction n with
  | zero =>
    intro l hl
    rw [List.length_eq_zero.mp (Nat.le_zero.mp hl)]
    simp [collapse_ws_nil]
  | succ n ih =>
    intro l hl
    cases l with
    | nil => simp [collapse_ws_nil]
    | cons c rest =>
      have hrest : rest.length ≤ n := Nat.le_of_succ_le_succ (by simpa using hl)
      by_cases h : re_ws c
      · rw [collapse_ws_cons_pos h]
        have hchain := ih (rest.dropWhile re_ws)
          (Nat.le_trans (List.dropWhile_suffix re_ws).length_le hrest)
        apply List.Chain'.cons' hchain
        intro b hb hcontra
        cases hd : rest.dropWhile re_ws with
        | nil => rw [hd] at hb; simp [collapse_ws_nil] at hb
        | cons d rest2 =>
          have hdws : re_ws d = false := head_dropWhile_false re_ws rest hd
          rw [hd, collapse_ws_cons_neg (by simp [hdws])] at hb
          simp at hb
          subst hb
          simp [hdws] at hcontra
      · rw [collapse_ws_cons_neg h]
        apply List.Chain'.cons' (ih rest hrest)
        intro b _ hcontra
        exact h hcontra.1

/-! ### Strip lemmas -/

theorem strip_left_suffix (l : List Char) : strip_left l <:+ l :=
  List.dropWhile_suffix re_ws

theorem strip_right_prefix_thm (l : List Char) : strip_right l <+: l := by
  have h : l.reverse.dropWhile re_ws <:+ l.reverse := List.dropWhile_suffix re_ws
  have h2 := List.reverse_prefix.mpr h
  rwa [List.reverse_reverse] at h2

theorem head?_dropWhile_false {α : Type} (p : α → Bool) (l : List α) {d : α}
    (h : (l.dropWhile p).head? = some d) : p d = false := by
  cases hr : l.dropWhile p with
  | nil => rw [hr] at h; simp at h
  | cons e rest =>
    rw [hr] at h
    simp at h
    subst h
    exact head_dropWhile_false p l hr

theorem getLast?_strip_right_false {l : List Char} {d : Char}
    (h : (strip_right l).getLast? = some d) : re_ws d = false := by
  apply head?_dropWhile_false re_ws l.reverse
  rw [← List.head?_reverse] at h
  simpa [strip_right] using h

theorem strip_left_eq_self {l : List Char}
    (h : ∀ d, l.head? = some d → re_ws d = false) : strip_left l = l := by
  cases l with
  | nil => rfl
  | cons c rest =>
    exact List.dropWhile_cons_of_neg (by simp [h c rfl])

theorem strip_right_eq_self {l : List Char}
    (h : ∀ d, l.getLast? = some d → re_ws d = false) : strip_right l = l := by
  have : l.reverse.dropWhile re_ws = l.reverse := by
    cases hr : l.reverse with
    | nil => simp
    | cons c rest =>
      apply List.dropWhile_cons_of_neg
      have : l.getLast? = some c := by rw [← List.head?_reverse, hr]; rfl
      simp [h c this]
  simp [strip_right, this]

theorem head?_of_prefix {α : Type} {l₁ l₂ : List α} (h : l₁ <+: l₂) {d : α}
    (hd : l₁.head? = some d) : l₂.head? = some d := by
  obtain ⟨t, ht⟩ := h
  subst ht
  cases l₁ with
  | nil => simp at hd
  | cons c rest => simpa using hd

theorem py_strip_nil : py_strip [] = [] := rfl

theorem py_strip_idem (l : List Char) : py_strip (py_strip l) = py_strip l := by
  cases hx : py_strip l with
  | nil => exact py_strip_nil
  | cons d rest =>
    have hhead : re_ws d = false := by
      have hsl : strip_left l ≠ [] := by
        intro hnil
        rw [py_strip, hnil] at hx
        simp [strip_right] at hx
      cases hsl2 : strip_left l with
      | nil => exact absurd hsl2 hsl
      | cons e s =>
        have he : re_ws e = false := head_dropWhile_false re_ws l hsl2
        have hpre : strip_right (e :: s) <+: (e :: s) := strip_right_prefix_thm _
        have : (e :: s).head? = some d := by
          apply head?_of_prefix hpre
          rw [← hsl2, ← py_strip, hx]
          rfl
        simp at this
        rwa [this] at he
    have hlast : ∀ e, (d :: rest).getLast? = some e → re_ws e = false := by
      intro e he
      apply getLast?_strip_right_false (l := strip_left l)
      rw [← py_strip, hx]
      exact he
    rw [py_strip, strip_left_eq_self (by intro e he; simp at he; rwa [he] at hhead),
      strip_right_eq_self hlast]

theorem mem_dropWhile_of_not {α : Type} {p : α → Bool} {c : α} :
    ∀ {l : List α}, c ∈ l → p c = false → c ∈ l.dropWhile p := by
  intro l
  induction l with
  | nil => intro h; simp at h
  | cons e t ih =>
    intro hmem hc
    by_cases he : p e
    · rw [List.dropWhile_cons_of_pos he]
      rcases List.mem_cons.mp hmem with h | h
      · subst h; rw [hc] at he; simp at he
      · exact ih h hc
    · rwa [List.dropWhile_cons_of_neg he]

theorem mem_strip_left_of_not {l : List Char} {c : Char} (h : c ∈ l)
    (hc : re_ws c = false) : c ∈ strip_left l :=
  mem_dropWhile_of_not h hc

theorem mem_py_strip_of_not {l : List Char} {c : Char} (h : c ∈ l)
    (hc : re_ws c = false) : c ∈ py_strip l := by
  have h1 : c ∈ strip_left l := mem_strip_left_of_not h hc
  have h2 : c ∈ (strip_left l).reverse := by simpa using h1
  have h3 : c ∈ (strip_left l).reverse.dropWhile re_ws := mem_dropWhile_of_not h2 hc
  simpa [py_strip, strip_right] using h3

theorem mem_collapse_of_not {c : Char} (hc : re_ws c = false) :
    ∀ (l : List Char), c ∈ l → c ∈ collapse_ws l := by
  suffices h : ∀ (n : Nat) (l : List Char), l.length ≤ n → c ∈ l → c ∈ collapse_ws l from
    fun l => h l.length l le_rfl
  intro n
  induction n with
  | zero =>
    intro l hl hmem
    rw [List.length_eq_zero.mp (Nat.le_zero.mp hl)] at hmem
    simp at hmem
  | succ n ih =>
    intro l hl hmem
    cases l with
    | nil => simp at hmem
    | cons e rest =>
      have hrest : rest.length ≤ n := Nat.le_of_succ_le_succ (by simpa using hl)
      by_cases he : re_ws e
      · rw [collapse_ws_cons_pos he]
        rcases List.mem_cons.mp hmem with h | h
        · subst h; rw [hc] at he; simp at he
        · have h2 : c ∈ rest.dropWhile re_ws := mem_dropWhile_of_not h hc
          have h3 := ih (rest.dropWhile re_ws)
            (Nat.le_trans (List.dropWhile_suffix re_ws).length_le hrest) h2
          exact List.mem_cons_of_mem _ h3
      · rw [collapse_ws_cons_neg he]
        rcases List.mem_cons.mp hmem with h | h
        · subst h; exact List.mem_cons_self _ _
        · exact List.mem_cons_of_mem _ (ih rest hrest h)

theorem py_strip_eq_nil_iff (l : List Char) : py_strip l = [] ↔ l.all re_ws := by
  constructor
  · intro h
    rw [List.all_eq_true]
    intro c hmem
    by_contra hcon
    have hc : re_ws c = false := by simpa using hcon
    have := mem_py_strip_of_not hmem hc
    rw [h] at this
    simp at this
  · intro h
    rw [List.all_eq_true] at h
    have h1 : strip_left l = [] := List.dropWhile_eq_nil_iff.mpr h
    rw [py_strip, h1]
    rfl

theorem normalize_eq_nil_iff (l : List Char) : normalize l = [] ↔ l.all re_ws := by
  rw [normalize, py_strip_eq_nil_iff]
  constructor
  · intro h
    rw [List.all_eq_true] at h ⊢
    intro c hmem
    by_contra hcon
    have hc : re_ws c = false := by simpa using hcon
    have := mem_collapse_of_not hc l hmem
    have := h c this
    rw [hc] at this
    simp at this
  · intro h
    rw [List.all_eq_true] at h ⊢
    cases l with
    | nil => intro c hmem; rw [collapse_ws_nil] at hmem; simp at hmem
    | cons e rest =>
      have he : re_ws e = true := h e (List.mem_cons_self _ _)
      have hdrop : rest.dropWhile re_ws = [] :=
        List.dropWhile_eq_nil_iff.mpr fun x hx => h x (List.mem_cons_of_mem _ hx)
      rw [collapse_ws_cons_pos he, hdrop, collapse_ws_nil]
      intro c hmem
      simp at hmem
      subst hmem
      decide

/-! ### Infix is preserved by normalization -/

theorem strip_right_eq_nil_iff (l : List Char) : strip_right l = [] ↔ l.all re_ws := by
  rw [strip_right, List.reverse_eq_nil_iff, List.dropWhile_eq_nil_iff, List.all_eq_true]
  constructor
  · intro h x hx
    exact h x (List.mem_reverse.mpr hx)
  · intro h x hx
    exact h x (List.mem_reverse.mp hx)

theorem strip_right_cons (c : Char) (x : List Char) :
    strip_right (c :: x) =
      if strip_right x = [] ∧ re_ws c = true then [] else c :: strip_right x := by
  have hrev : (c :: x).reverse = x.reverse ++ [c] := by simp
  rw [strip_right, hrev, List.dropWhile_append]
  by_cases hx : (x.reverse.dropWhile re_ws).isEmpty = true
  · have hnil : strip_right x = [] := by
      rw [strip_right, List.isEmpty_iff.mp hx]
      rfl
    rw [if_pos hx]
    by_cases hc : re_ws c = true
    · rw [List.dropWhile_cons_of_pos hc]
      simp [hnil, hc]
    · rw [List.dropWhile_cons_of_neg (by simpa using hc)]
      simp [hnil, hc]
  · have hne : strip_right x ≠ [] := by
      intro hcon
      apply hx
      rw [List.isEmpty_iff]
      rw [strip_right, List.reverse_eq_nil_iff] at hcon
      exact hcon
    rw [if_neg hx, if_neg (fun hcon => hne hcon.1)]
    simp [strip_right]

theorem strip_right_cons_neg {c : Char} (hc : re_ws c = false) (x : List Char) :
    strip_right (c :: x) = c :: strip_right x := by
  rw [strip_right_cons]
  rw [if_neg]
  intro hcon
  rw [hc] at hcon
  simp at hcon

/-- A whitespace-only prefix survives `strip_right` when the remainder does not
strip to nothing. -/
theorem strip_right_ws_append {p m : List Char} (hp : p.all re_ws)
    (hm : strip_right m ≠ []) : strip_right (p ++ m) = p ++ strip_right m := by
  have hrev : (p ++ m).reverse = m.reverse ++ p.reverse := by simp
  rw [strip_right, hrev, List.dropWhile_append]
  have hne : (m.reverse.dropWhile re_ws).isEmpty = false := by
    rw [Bool.eq_false_iff]
    intro hcon
    apply hm
    rw [strip_right, List.isEmpty_iff.mp hcon]
    rfl
  rw [hne]
  simp [strip_right]

/-- Stripping commutes. -/
theorem strip_left_strip_right (l : List Char) :
    strip_left (strip_right l) = strip_right (strip_left l) := by
  by_cases hall : l.all re_ws
  · have h1 : strip_right l = [] := (strip_right_eq_nil_iff l).mpr hall
    have h2 : strip_left l = [] := by
      rw [strip_left, List.dropWhile_eq_nil_iff]
      rw [List.all_eq_true] at hall
      exact hall
    rw [h1, h2]
    rfl
  · have hp : (l.takeWhile re_ws).all re_ws := by
      rw [List.all_eq_true]
      intro x hx
      exact List.mem_takeWhile_imp hx
    have hsplit : l = l.takeWhile re_ws ++ strip_left l :=
      (List.takeWhile_append_dropWhile re_ws l).symm
    have hmne : strip_right (strip_left l) ≠ [] := by
      rw [Ne, strip_right_eq_nil_iff]
      intro hcon
      apply hall
      rw [List.all_eq_true]
      intro x hx
      rw [hsplit] at hx
      rcases List.mem_append.mp hx with h | h
      · exact List.mem_takeWhile_imp h
      · rw [List.all_eq_true] at hcon
        exact hcon x h
    conv_lhs => rw [hsplit]
    rw [strip_right_ws_append hp hmne]
    rw [strip_left, List.dropWhile_append]
    have hempty : ((l.takeWhile re_ws).dropWhile re_ws).isEmpty = true := by
      rw [List.isEmpty_iff, List.dropWhile_eq_nil_iff]
      intro x hx
      exact List.mem_takeWhile_imp hx
    rw [hempty]
    simp only [if_pos]
    cases hm : strip_right (strip_left l) with
    | nil => exact absurd hm hmne
    | cons d rest =>
      have hpre : strip_right (strip_left l) <+: strip_left l := strip_right_prefix_thm _
      rw [hm] at hpre
      have hd : re_ws d = false := by
        cases hsl : strip_left l with
        | nil =>
          rw [hsl] at hpre
          have := List.IsPrefix.length_le hpre
          simp at this
        | cons e s =>
          rw [hsl] at hpre
          rcases (List.cons_prefix_cons.mp hpre) with ⟨heq, _⟩
          rw [heq]
          exact head_dropWhile_false re_ws l hsl
      exact List.dropWhile_cons_of_neg (by simp [hd])

theorem py_strip_eq_comm (l : List Char) :
    py_strip l = strip_left (strip_right l) := by
  rw [py_strip, strip_left_strip_right]

theorem strip_left_mono {x y : List Char} (h : x <+: y) :
    strip_left x <+: strip_left y := by
  obtain ⟨t, ht⟩ := h
  subst ht
  rw [strip_left, strip_left, List.dropWhile_append]
  by_cases hx : (x.dropWhile re_ws).isEmpty = true
  · rw [if_pos hx, List.isEmpty_iff.mp hx]
    exact List.nil_prefix
  · rw [if_neg hx]
    exact List.prefix_append _ _

/-- An infix whose head is not whitespace survives `dropWhile re_ws`. -/
theorem infix_dropWhile {x l : List Char} (h : x <:+: l)
    (hhead : ∀ d, x.head? = some d → re_ws d = false) :
    x <:+: l.dropWhile re_ws := by
  cases x with
  | nil => exact List.nil_infix
  | cons c xs =>
    have hc : re_ws c = false := hhead c rfl
    obtain ⟨A, B, hAB⟩ := h
    subst hAB
    rw [List.append_assoc, List.dropWhile_append]
    by_cases hA : (A.dropWhile re_ws).isEmpty = true
    · rw [if_pos hA, List.dropWhile_append]
      have hx : ¬ ((c :: xs).dropWhile re_ws).isEmpty = true := by
        rw [List.dropWhile_cons_of_neg (by simp [hc])]
        simp
      rw [if_neg hx, List.dropWhile_cons_of_neg (by simp [hc])]
      exact (List.prefix_append _ _).isInfix
    · rw [if_neg hA]
      exact ⟨A.dropWhile re_ws, B, by rw [List.append_assoc]⟩

/-- An infix with non-whitespace endpoints survives `py_strip`. -/
theorem infix_py_strip {x l : List Char} (h : x <:+: l)
    (hhead : ∀ d, x.head? = some d → re_ws d = false)
    (hlast : ∀ d, x.getLast? = some d → re_ws d = false) :
    x <:+: py_strip l := by
  have h1 : x <:+: strip_left l := infix_dropWhile h hhead
  have h2 : x.reverse <:+: (strip_left l).reverse := List.reverse_infix.mpr h1
  have h3 : x.reverse <:+: (strip_left l).reverse.dropWhile re_ws := by
    apply infix_dropWhile h2
    intro d hd
    rw [List.head?_reverse] at hd
    exact hlast d hd
  have h4 : x.reverse.reverse <:+: ((strip_left l).reverse.dropWhile re_ws).reverse :=
    List.reverse_infix.mpr h3
  rw [List.reverse_reverse] at h4
  exact h4

/-- Prefix side: `strip_right (collapse_ws S)` is a prefix of
`collapse_ws (S ++ B)`. -/
theorem strip_right_collapse_prefix :
    ∀ (S B : List Char), strip_right (collapse_ws S) <+: collapse_ws (S ++ B) := by
  suffices h : ∀ (n : Nat) (S B : List Char), S.length ≤ n →
      strip_right (collapse_ws S) <+: collapse_ws (S ++ B) from
    fun S B => h S.length S B le_rfl
  intro n
  induction n with
  | zero =>
    intro S B hS
    rw [List.length_eq_zero.mp (Nat.le_zero.mp hS)]
    rw [collapse_ws_nil]
    exact List.nil_prefix
  | succ n ih =>
    intro S B hS
    cases S with
    | nil =>
      rw [collapse_ws_nil]
      exact List.nil_prefix
    | cons c S2 =>
      have hS2 : S2.length ≤ n := Nat.le_of_succ_le_succ (by simpa using hS)
      by_cases hc : re_ws c
      · rw [collapse_ws_cons_pos hc, List.cons_append, collapse_ws_cons_pos hc]
        rw [strip_right_cons]
        by_cases hnil : strip_right (collapse_ws (S2.dropWhile re_ws)) = []
        · rw [if_pos ⟨hnil, by decide⟩]
          exact List.nil_prefix
        · rw [if_neg (fun hcon => hnil hcon.1)]
          rw [List.cons_prefix_cons]
          refine ⟨rfl, ?_⟩
          rw [List.dropWhile_append]
          by_cases hS2e : (S2.dropWhile re_ws).isEmpty = true
          · exfalso
            apply hnil
            rw [List.isEmpty_iff.mp hS2e, collapse_ws_nil]
            rfl
          · rw [if_neg hS2e]
            exact ih (S2.dropWhile re_ws) B
              (Nat.le_trans (List.dropWhile_suffix re_ws).length_le hS2)
      · rw [collapse_ws_cons_neg hc, List.cons_append, collapse_ws_cons_neg hc]
        rw [strip_right_cons_neg (by simpa using hc)]
        rw [List.cons_prefix_cons]
        exact ⟨rfl, ih S2 B hS2⟩

/-- Suffix side: `strip_left (collapse_ws S)` is a suffix of
`collapse_ws (A ++ S)`. -/
theorem strip_left_collapse_suffix :
    ∀ (A S : List Char), strip_left (collapse_ws S) <:+ collapse_ws (A ++ S) := by
  suffices h : ∀ (n : Nat) (A S : List Char), A.length ≤ n →
      strip_left (collapse_ws S) <:+ collapse_ws (A ++ S) from
    fun A S => h A.length A S le_rfl
  intro n
  induction n with
  | zero =>
    intro A S hA
    rw [List.length_eq_zero.mp (Nat.le_zero.mp hA)]
    simp only [List.nil_append]
    exact strip_left_suffix _
  | succ n ih =>
    intro A S hA
    cases A with
    | nil =>
      simp only [List.nil_append]
      exact strip_left_suffix _
    | cons a A2 =>
      have hA2 : A2.length ≤ n := Nat.le_of_succ_le_succ (by simpa using hA)
      by_cases ha : re_ws a
      · rw [List.cons_append, collapse_ws_cons_pos ha, List.dropWhile_append]
        by_cases hA2e : (A2.dropWhile re_ws).isEmpty = true
        · rw [if_pos hA2e, collapse_ws_dropWhile]
          exact (List.suffix_cons _ _)
        · rw [if_neg hA2e]
          have := ih (A2.dropWhile re_ws) S
            (Nat.le_trans (List.dropWhile_suffix re_ws).length_le hA2)
          exact this.trans (List.suffix_cons _ _)
      · rw [List.cons_append, collapse_ws_cons_neg ha]
        exact (ih A2 S hA2).trans (List.suffix_cons _ _)

/-- Normalization preserves the infix (contiguous substring) relation. -/
theorem normalize_infix_mono {S T : List Char} (h : S <:+: T) :
    normalize S <:+: normalize T := by
  obtain ⟨A, B, hT⟩ := h
  subst hT
  have h1 : strip_right (collapse_ws S) <+: collapse_ws (S ++ B) :=
    strip_right_collapse_prefix S B
  have h2 : strip_left (strip_right (collapse_ws S)) <+:
      strip_left (collapse_ws (S ++ B)) := strip_left_mono h1
  have h3 : strip_left (collapse_ws (S ++ B)) <:+ collapse_ws (A ++ (S ++ B)) :=
    strip_left_collapse_suffix A (S ++ B)
  have h4 : strip_left (strip_right (collapse_ws S)) <:+: collapse_ws (A ++ (S ++ B)) :=
    h2.isInfix.trans h3.isInfix
  rw [← py_strip_eq_comm] at h4
  have h5 : normalize S <:+: collapse_ws (A ++ S ++ B) := by
    rw [normalize]
    rwa [List.append_assoc]
  apply infix_py_strip h5
  · intro d hd
    cases hn : normalize S with
    | nil => rw [hn] at hd; simp at hd
    | cons e rest =>
      rw [hn] at hd
      simp at hd
      subst hd
      have hsl : strip_left (strip_right (collapse_ws S)) = e :: rest := by
        rw [← py_strip_eq_comm, ← normalize, hn]
      exact head_dropWhile_false re_ws _ hsl
  · intro d hd
    rw [normalize] at hd
    exact getLast?_strip_right_false hd

/-! ## The reverse index walk of `search_source_text`

`advance_norm n s` models the loop at lines 145-153 of
`13_text_classifier.py` (advance `n` normalized positions from state `s`);
it returns `none` when the loop would read `source[src_i]` out of bounds.
`take_norm n s` models the guarded consume loop at lines 158-167, returning
the consumed original characters (`source[match_start:src_i]`). -/

def advance_norm : Nat → List Char → Option (List Char)
  | 0, s => some s
  | _ + 1, [] => none
  | n + 1, c :: rest =>
    if src_ws c then advance_norm n (rest.dropWhile src_ws)
    else advance_norm n rest

def take_norm : Nat → List Char → List Char
  | 0, _ => []
  | _ + 1, [] => []
  | n + 1, c :: rest =>
    if src_ws c then (c :: rest.takeWhile src_ws) ++ take_norm n (rest.dropWhile src_ws)
    else c :: take_norm n rest

/-- Number of walk steps available in `s`: one per non-whitespace character
plus one per whitespace run (whitespace in the walk sense). -/
def steps_aux : Bool → List Char → Nat
  | _, [] => 0
  | inRun, c :: rest =>
    if src_ws c then (if inRun then steps_aux true rest else 1 + steps_aux true rest)
    else 1 + steps_aux false rest

def steps (l : List Char) : Nat := steps_aux false l

theorem steps_aux_true_eq (l : List Char) :
    steps_aux true l = steps (l.dropWhile src_ws) := by
  induction l with
  | nil => rfl
  | cons c rest ih =>
    by_cases h : src_ws c
    · simp [steps_aux, h, List.dropWhile_cons_of_pos h, ih]
    · simp [steps_aux, steps, h, List.dropWhile_cons_of_neg (by simpa using h)]

theorem steps_nil : steps [] = 0 := rfl

theorem steps_cons_neg {c : Char} (h : ¬ src_ws c) (rest : List Char) :
    steps (c :: rest) = 1 + steps rest := by
  simp [steps, steps_aux, h]

theorem steps_cons_pos {c : Char} (h : src_ws c) (rest : List Char) :
    steps (c :: rest) = 1 + steps (rest.dropWhile src_ws) := by
  simp [steps, steps_aux, h, steps_aux_true_eq]

theorem advance_norm_isSome {n : Nat} :
    ∀ {s : List Char}, n ≤ steps s → (advance_norm n s).isSome = true := by
  induction n with
  | zero => intro s _; simp [advance_norm]
  | succ n ih =>
    intro s h
    cases s with
    | nil => rw [steps_nil] at h; exact absurd h (by simp)
    | cons c rest =>
      by_cases hc : src_ws c
      · rw [steps_cons_pos hc] at h
        simp only [advance_norm, if_pos hc]
        exact ih (by omega)
      · rw [steps_cons_neg hc] at h
        simp only [advance_norm, if_neg hc]
        exact ih (by omega)

theorem dropWhile_re_of_src (l : List Char) :
    l.dropWhile re_ws = (l.dropWhile src_ws).dropWhile re_ws := by
  induction l with
  | nil => rfl
  | cons c rest ih =>
    by_cases hc : src_ws c
    · have hre : re_ws c = true := src_ws_imp_re_ws hc
      rw [List.dropWhile_cons_of_pos hre, List.dropWhile_cons_of_pos hc, ih]
    · rw [List.dropWhile_cons_of_neg hc]

theorem collapse_dropWhile_length_le (l : List Char) :
    (collapse_ws (l.dropWhile re_ws)).length ≤ (collapse_ws l).length := by
  rw [collapse_ws_dropWhile]
  exact (List.dropWhile_suffix re_ws).length_le

theorem collapse_length_le_steps (l : List Char) :
    (collapse_ws l).length ≤ steps l := by
  suffices h : ∀ (n : Nat) (l : List Char), l.length ≤ n →
      (collapse_ws l).length ≤ steps l from h l.length l le_rfl
  intro n
  induction n with
  | zero =>
    intro l hl
    rw [List.length_eq_zero.mp (Nat.le_zero.mp hl)]
    simp [collapse_ws_nil, steps_nil]
  | succ n ih =>
    intro l hl
    cases l with
    | nil => simp [collapse_ws_nil, steps_nil]
    | cons c rest =>
      have hrest : rest.length ≤ n := Nat.le_of_succ_le_succ (by simpa using hl)
      by_cases hsrc : src_ws c
      · have hre : re_ws c = true := src_ws_imp_re_ws hsrc
        rw [collapse_ws_cons_pos hre, steps_cons_pos hsrc]
        simp only [List.length_cons]
        have h1 : (collapse_ws (rest.dropWhile re_ws)).length ≤
            (collapse_ws (rest.dropWhile src_ws)).length := by
          rw [dropWhile_re_of_src]
          exact collapse_dropWhile_length_le _
        have h2 := ih (rest.dropWhile src_ws)
          (Nat.le_trans (List.dropWhile_suffix src_ws).length_le hrest)
        omega
      · by_cases hre : re_ws c
        · rw [collapse_ws_cons_pos hre, steps_cons_neg hsrc]
          simp only [List.length_cons]
          have h1 := collapse_dropWhile_length_le rest
          have h2 := ih rest hrest
          omega
        · rw [collapse_ws_cons_neg hre, steps_cons_neg hsrc]
          simp only [List.length_cons]
          have h2 := ih rest hrest
          omega

theorem py_strip_length_le (l : List Char) : (py_strip l).length ≤ l.length :=
  Nat.le_trans (strip_right_prefix_thm _).length_le (strip_left_suffix _).length_le

theorem normalize_length_le_steps_dropWhile (l : List Char) :
    (normalize l).length ≤ steps (l.dropWhile src_ws) := by
  cases l with
  | nil => simp [normalize, collapse_ws_nil, py_strip_nil, steps_nil]
  | cons c rest =>
    by_cases hsrc : src_ws c
    · have hre : re_ws c = true := src_ws_imp_re_ws hsrc
      rw [List.dropWhile_cons_of_pos hsrc]
      have h1 : normalize (c :: rest) = py_strip (collapse_ws (rest.dropWhile re_ws)) := by
        rw [normalize, collapse_ws_cons_pos hre, py_strip]
        have : strip_left (' ' :: collapse_ws (rest.dropWhile re_ws)) =
            strip_left (collapse_ws (rest.dropWhile re_ws)) := by
          rw [strip_left, List.dropWhile_cons_of_pos (by decide)]
          rfl
        rw [this, ← py_strip]
      rw [h1]
      calc (py_strip (collapse_ws (rest.dropWhile re_ws))).length
          ≤ (collapse_ws (rest.dropWhile re_ws)).length := py_strip_length_le _
        _ ≤ (collapse_ws (rest.dropWhile src_ws)).length := by
            rw [dropWhile_re_of_src]; exact collapse_dropWhile_length_le _
        _ ≤ steps (rest.dropWhile src_ws) := collapse_length_le_steps _
    · rw [List.dropWhile_cons_of_neg hsrc]
      calc (normalize (c :: rest)).length
          ≤ (collapse_ws (c :: rest)).length := py_strip_length_le _
        _ ≤ steps (c :: rest) := collapse_length_le_steps _

/-! ### Correspondence of the walk with normalization

The walk loops test membership in the literal string `" \t\n\r"` while
`normalize` uses the regex class `\s`.  The two classes agree on every
character except `\x0b`, `\x0c` and the non-ASCII white-space code points;
`ws_agree` states that a string contains none of the disputed characters. -/

def ws_agree (l : List Char) : Bool := l.all (fun c => re_ws c == src_ws c)

theorem ws_agree_subset {l l2 : List Char} (hsub : ∀ c, c ∈ l2 → c ∈ l)
    (h : ws_agree l = true) : ws_agree l2 = true := by
  rw [ws_agree, List.all_eq_true] at h ⊢
  intro c hc
  exact h c (hsub c hc)

theorem ws_agree_eq {l : List Char} (h : ws_agree l = true) {c : Char}
    (hc : c ∈ l) : re_ws c = src_ws c := by
  rw [ws_agree, List.all_eq_true] at h
  simpa using h c hc

theorem dropWhile_congr_agree {l : List Char} (h : ws_agree l = true) :
    l.dropWhile re_ws = l.dropWhile src_ws := by
  induction l with
  | nil => rfl
  | cons c rest ih =>
    have hc : re_ws c = src_ws c := ws_agree_eq h (List.mem_cons_self _ _)
    have hrest : ws_agree rest = true :=
      ws_agree_subset (fun d hd => List.mem_cons_of_mem _ hd) h
    by_cases hsrc : src_ws c
    · rw [List.dropWhile_cons_of_pos (by rw [hc]; exact hsrc),
        List.dropWhile_cons_of_pos hsrc]
      exact ih hrest
    · rw [List.dropWhile_cons_of_neg (by rw [hc]; exact hsrc),
        List.dropWhile_cons_of_neg hsrc]

theorem advance_norm_collapse :
    ∀ (n : Nat) {s s2 : List Char}, ws_agree s = true →
      advance_norm n s = some s2 → collapse_ws s2 = (collapse_ws s).drop n := by
  intro n
  induction n with
  | zero =>
    intro s s2 _ h
    simp [advance_norm] at h
    subst h
    simp
  | succ n ih =>
    intro s s2 hagree h
    cases s with
    | nil => simp [advance_norm] at h
    | cons c rest =>
      have hrest : ws_agree rest = true :=
        ws_agree_subset (fun d hd => List.mem_cons_of_mem _ hd) hagree
      have hc : re_ws c = src_ws c := ws_agree_eq hagree (List.mem_cons_self _ _)
      by_cases hsrc : src_ws c
      · rw [show advance_norm (n + 1) (c :: rest) =
            advance_norm n (rest.dropWhile src_ws) by simp [advance_norm, hsrc]] at h
        have hdrop : ws_agree (rest.dropWhile src_ws) = true :=
          ws_agree_subset (fun d hd =>
            (List.dropWhile_suffix src_ws).subset hd) hrest
        rw [collapse_ws_cons_pos (by rw [hc]; exact hsrc)]
        rw [List.drop_succ_cons, dropWhile_congr_agree hrest]
        exact ih hdrop h
      · rw [show advance_norm (n + 1) (c :: rest) = advance_norm n rest by
          simp [advance_norm, hsrc]] at h
        rw [collapse_ws_cons_neg (by rw [hc]; exact hsrc), List.drop_succ_cons]
        exact ih hrest h

theorem take_norm_head? {n : Nat} {s : List Char} {d : Char}
    (h : (take_norm n s).head? = some d) : s.head? = some d := by
  cases n with
  | zero => simp [take_norm] at h
  | succ n =>
    cases s with
    | nil => simp [take_norm] at h
    | cons c rest =>
      by_cases hc : src_ws c
      · simp only [take_norm, if_pos hc, List.cons_append, List.head?_cons] at h ⊢
        exact h
      · simp only [take_norm, if_neg hc, List.head?_cons] at h ⊢
        exact h

theorem collapse_ws_run_append {run X : List Char} (hne : run ≠ [])
    (hall : run.all re_ws = true)
    (hX : ∀ d, X.head? = some d → re_ws d = false) :
    collapse_ws (run ++ X) = ' ' :: collapse_ws X := by
  cases run with
  | nil => exact absurd rfl hne
  | cons r rs =>
    rw [List.all_eq_true] at hall
    have hr : re_ws r = true := hall r (List.mem_cons_self _ _)
    rw [List.cons_append, collapse_ws_cons_pos hr, List.dropWhile_append]
    have hrs : (rs.dropWhile re_ws).isEmpty = true := by
      rw [List.isEmpty_iff, List.dropWhile_eq_nil_iff]
      intro x hx
      exact hall x (List.mem_cons_of_mem _ hx)
    rw [if_pos hrs]
    congr 1
    cases X with
    | nil => rfl
    | cons d xs =>
      rw [List.dropWhile_cons_of_neg (by simp [hX d rfl])]

theorem take_norm_collapse :
    ∀ (n : Nat) {s : List Char}, ws_agree s = true →
      collapse_ws (take_norm n s) = (collapse_ws s).take n := by
  intro n
  induction n with
  | zero => intro s _; simp [take_norm, collapse_ws_nil]
  | succ n ih =>
    intro s hagree
    cases s with
    | nil => simp [take_norm, collapse_ws_nil]
    | cons c rest =>
      have hrest : ws_agree rest = true :=
        ws_agree_subset (fun d hd => List.mem_cons_of_mem _ hd) hagree
      have hc : re_ws c = src_ws c := ws_agree_eq hagree (List.mem_cons_self _ _)
      by_cases hsrc : src_ws c
      · simp only [take_norm, if_pos hsrc]
        have hdropagree : ws_agree (rest.dropWhile src_ws) = true :=
          ws_agree_subset (fun d hd =>
            (List.dropWhile_suffix src_ws).subset hd) hrest
        rw [collapse_ws_run_append (by simp)
          (by
            rw [List.all_eq_true]
            intro x hx
            rcases List.mem_cons.mp hx with h | h
            · rw [h, hc]; exact hsrc
            · have hxr : x ∈ rest := (List.takeWhile_prefix src_ws).subset h
              rw [ws_agree_eq hrest hxr]
              exact List.mem_takeWhile_imp h)
          (by
            intro d hd
            have hd2 := take_norm_head? hd
            have hmem : d ∈ rest.dropWhile src_ws :=
              List.mem_of_mem_head? (by rw [hd2]; rfl)
            have hsrcd : src_ws d = false := head?_dropWhile_false src_ws rest hd2
            rw [ws_agree_eq hrest ((List.dropWhile_suffix src_ws).subset hmem)]
            exact hsrcd)]
        rw [ih hdropagree]
        rw [collapse_ws_cons_pos (by rw [hc]; exact hsrc)]
        rw [List.take_succ_cons, dropWhile_congr_agree hrest]
      · simp only [take_norm, if_neg hsrc]
        rw [collapse_ws_cons_neg (by rw [hc]; exact hsrc)]
        rw [collapse_ws_cons_neg (by rw [hc]; exact hsrc)]
        rw [ih hrest, List.take_succ_cons]

theorem take_norm_prefix_thm : ∀ (n : Nat) (s : List Char), take_norm n s <+: s := by
  intro n
  induction n with
  | zero => intro s; exact List.nil_prefix
  | succ n ih =>
    intro s
    cases s with
    | nil => exact List.nil_prefix
    | cons c rest =>
      by_cases hc : src_ws c
      · simp only [take_norm, if_pos hc, List.cons_append]
        rw [List.cons_prefix_cons]
        refine ⟨rfl, ?_⟩
        conv_rhs => rw [← List.takeWhile_append_dropWhile src_ws rest]
        exact (List.prefix_append_right_inj _).mpr (ih _)
      · simp only [take_norm, if_neg hc]
        rw [List.cons_prefix_cons]
        exact ⟨rfl, ih rest⟩

theorem advance_norm_suffix :
    ∀ (n : Nat) {s s2 : List Char}, advance_norm n s = some s2 → s2 <:+ s := by
  intro n
  induction n with
  | zero =>
    intro s s2 h
    simp [advance_norm] at h
    subst h
    exact List.suffix_refl _
  | succ n ih =>
    intro s s2 h
    cases s with
    | nil => simp [advance_norm] at h
    | cons c rest =>
      by_cases hc : src_ws c
      · rw [show advance_norm (n + 1) (c :: rest) =
            advance_norm n (rest.dropWhile src_ws) by simp [advance_norm, hc]] at h
        exact ((ih h).trans (List.dropWhile_suffix src_ws)).trans
          (List.suffix_cons _ _)
      · rw [show advance_norm (n + 1) (c :: rest) = advance_norm n rest by
          simp [advance_norm, hc]] at h
        exact (ih h).trans (List.suffix_cons _ _)

/-! ## `search_source_text` (13_text_classifier.py, lines 98-169)

Pages are the dictionaries `{"number": ..., "text": ...}` produced by
`read_document_pages`; the page lookup models the loop at lines 112-118
(first page whose `number` equals `page_number`). -/

structure SourcePage where
  number : Int
  text : List Char
deriving DecidableEq

def find_page (pages : List SourcePage) (page_number : Int) : Option SourcePage :=
  pages.find? (fun pg => pg.number == page_number)

/-- `source_norm.find(needle)`: index of the first occurrence of `needle`
in the haystack, `none` when absent («-1» in Python). -/
def first_idx (needle : List Char) : List Char → Option Nat
  | [] => if needle.isPrefixOf [] then some 0 else none
  | c :: t =>
    if needle.isPrefixOf (c :: t) then some 0
    else (first_idx needle t).map (fun i => i + 1)

theorem first_idx_eq_none_iff (needle : List Char) :
    ∀ (hay : List Char), first_idx needle hay = none ↔ ¬ needle <:+: hay := by
  intro hay
  induction hay with
  | nil =>
    simp only [first_idx]
    by_cases h : needle.isPrefixOf [] = true
    · rw [if_pos h]
      simp only [reduceCtorEq, false_iff, not_not]
      exact (List.isPrefixOf_iff_prefix.mp h).isInfix
    · rw [if_neg h]
      simp only [true_iff]
      intro hcon
      apply h
      rw [List.isPrefixOf_iff_prefix]
      rw [List.infix_nil] at hcon
      rw [hcon]
  | cons c t ih =>
    simp only [first_idx]
    by_cases h : needle.isPrefixOf (c :: t) = true
    · rw [if_pos h]
      simp only [reduceCtorEq, false_iff, not_not]
      exact (List.isPrefixOf_iff_prefix.mp h).isInfix
    · rw [if_neg h]
      rw [List.infix_cons_iff]
      constructor
      · intro hnone
        simp only [Option.map_eq_none'] at hnone
        intro hcon
        rcases hcon with hpre | hinf
        · exact h (List.isPrefixOf_iff_prefix.mpr hpre)
        · exact (ih.mp hnone) hinf
      · intro hcon
        simp only [Option.map_eq_none']
        apply ih.mpr
        intro hinf
        exact hcon (Or.inr hinf)

theorem first_idx_some_prefix {needle : List Char} :
    ∀ {hay : List Char} {i : Nat}, first_idx needle hay = some i →
      needle <+: hay.drop i := by
  intro hay
  induction hay with
  | nil =>
    intro i h
    simp only [first_idx] at h
    by_cases hp : needle.isPrefixOf [] = true
    · rw [if_pos hp] at h
      cases h
      exact List.isPrefixOf_iff_prefix.mp hp
    · rw [if_neg hp] at h
      cases h
  | cons c t ih =>
    intro i h
    simp only [first_idx] at h
    by_cases hp : needle.isPrefixOf (c :: t) = true
    · rw [if_pos hp] at h
      cases h
      exact List.isPrefixOf_iff_prefix.mp hp
    · rw [if_neg hp] at h
      simp only [Option.map_eq_some'] at h
      rcases h with ⟨j, hj, hij⟩
      subst hij
      rw [List.drop_succ_cons]
      exact ih hj

/-- The walk-back of a normalized match to original indices
(lines 135-169).  `none` models the unguarded `source[src_i]` read of the
advance loop going out of bounds; the theorems below show this cannot
happen for indices produced by `first_idx`. -/
def map_back (source : List Char) (idx mlen : Nat) : Option (List Char) :=
  match advance_norm idx (source.dropWhile src_ws) with
  | none => none
  | some s1 => some (take_norm mlen s1)

def search_source_text (search_text : List Char) (page_number : Int)
    (pages : List SourcePage) : Option (List Char) :=
  if search_text = [] ∨ py_strip search_text = [] then none
  else
    match find_page pages page_number with
    | none => none
    | some target_page =>
      if normalize search_text = [] then none
      else
        match first_idx (normalize search_text) (normalize target_page.text) with
        | none => none
        | some idx => map_back target_page.text idx (normalize search_text).length

theorem exists_strip_right_append (x : List Char) :
    ∃ t, x = strip_right x ++ t ∧ t.all re_ws = true := by
  refine ⟨(x.reverse.takeWhile re_ws).reverse, ?_, ?_⟩
  · conv_lhs => rw [← List.reverse_reverse x,
      ← List.takeWhile_append_dropWhile re_ws x.reverse]
    rw [List.reverse_append]
    rfl
  · rw [List.all_eq_true]
    intro d hd
    rw [List.mem_reverse] at hd
    exact List.mem_takeWhile_imp hd

/-! ### Main properties of `search_source_text` -/

theorem map_back_some {T : List Char} (idx mlen : Nat)
    (hidx : idx < (normalize T).length) :
    ∃ R, map_back T idx mlen = some R ∧ R <:+: T := by
  have hsteps : idx ≤ steps (T.dropWhile src_ws) :=
    Nat.le_of_lt (Nat.lt_of_lt_of_le hidx (normalize_length_le_steps_dropWhile T))
  have hsome := advance_norm_isSome (s := T.dropWhile src_ws) hsteps
  cases hadv : advance_norm idx (T.dropWhile src_ws) with
  | none => rw [hadv] at hsome; simp at hsome
  | some s1 =>
    refine ⟨take_norm mlen s1, ?_, ?_⟩
    · rw [map_back, hadv]
    · exact (take_norm_prefix_thm mlen s1).isInfix.trans
        (((advance_norm_suffix idx hadv).trans (List.dropWhile_suffix src_ws)).isInfix)

theorem map_back_normalize {T R needle : List Char} {idx : Nat}
    (hagree : ws_agree T = true)
    (hpre : needle <+: (normalize T).drop idx)
    (hne : needle ≠ [])
    (hstrip : py_strip needle = needle)
    (hR : map_back T idx needle.length = some R) :
    normalize R = needle := by
  have hidx : idx ≤ (normalize T).length := by
    by_contra hcon
    have hdrop : (normalize T).drop idx = [] := List.drop_eq_nil_of_le (by omega)
    rw [hdrop] at hpre
    have hlen := hpre.length_le
    simp only [List.length_nil, Nat.le_zero] at hlen
    exact hne (List.length_eq_zero.mp hlen)
  rw [map_back] at hR
  cases hadv : advance_norm idx (T.dropWhile src_ws) with
  | none => rw [hadv] at hR; cases hR
  | some s1 =>
    rw [hadv] at hR
    cases hR
    have hagree0 : ws_agree (T.dropWhile src_ws) = true :=
      ws_agree_subset (fun c hc => (List.dropWhile_suffix src_ws).subset hc) hagree
    have hagree1 : ws_agree s1 = true :=
      ws_agree_subset (fun c hc => (advance_norm_suffix idx hadv).subset hc) hagree0
    have h1 : collapse_ws (take_norm needle.length s1) =
        (collapse_ws s1).take needle.length := take_norm_collapse _ hagree1
    have h2 : collapse_ws s1 = (collapse_ws (T.dropWhile src_ws)).drop idx :=
      advance_norm_collapse idx hagree0 hadv
    have h3 : collapse_ws (T.dropWhile src_ws) = strip_left (collapse_ws T) := by
      rw [← dropWhile_congr_agree hagree, collapse_ws_dropWhile]
    obtain ⟨t, ht, _⟩ := exists_strip_right_append (strip_left (collapse_ws T))
    have h4 : strip_left (collapse_ws T) = normalize T ++ t := ht
    obtain ⟨u, hu⟩ := hpre
    have h5 : collapse_ws (take_norm needle.length s1) = needle := by
      rw [h1, h2, h3, h4, List.drop_append_of_le_length hidx, ← hu,
        List.append_assoc, List.take_left]
    rw [normalize, h5, hstrip]

/-- Claim C8's backbone: `search_source_text` returns `none` exactly when the
candidate is empty or whitespace-only, the page is absent, or the normalized
candidate does not occur in the normalized page text; and the result depends
on nothing but the looked-up page. -/
theorem search_source_text_none_iff (s : List Char) (p : Int)
    (pages : List SourcePage) :
    (search_source_text s p pages = none ↔
      (py_strip s = [] ∨ find_page pages p = none ∨
        ∃ pg, find_page pages p = some pg ∧
          ¬ normalize s <:+: normalize pg.text)) ∧
    (∀ pages2 : List SourcePage, find_page pages p = find_page pages2 p →
      search_source_text s p pages = search_source_text s p pages2) := by
  constructor
  · by_cases h0 : s = [] ∨ py_strip s = []
    · rw [search_source_text, if_pos h0]
      constructor
      · intro _
        left
        rcases h0 with h | h
        · rw [h]; exact py_strip_nil
        · exact h
      · intro _
        rfl
    · rw [search_source_text, if_neg h0]
      push_neg at h0
      obtain ⟨hs_ne, hstrip_ne⟩ := h0
      have hnorm_ne : normalize s ≠ [] := by
        intro hcon
        exact hstrip_ne ((py_strip_eq_nil_iff s).mpr
          ((normalize_eq_nil_iff s).mp hcon))
      split
      · rename_i hf
        constructor
        · intro _
          exact Or.inr (Or.inl hf)
        · intro _
          rfl
      · rename_i pg hf
        rw [if_neg hnorm_ne]
        split
        · rename_i hfi
          constructor
          · intro _
            exact Or.inr (Or.inr ⟨pg, hf, (first_idx_eq_none_iff _ _).mp hfi⟩)
          · intro _
            rfl
        · rename_i idx hfi
          have hpre := first_idx_some_prefix hfi
          have hidx : idx < (normalize pg.text).length := by
            have h1 := hpre.length_le
            rw [List.length_drop] at h1
            have h2 : 1 ≤ (normalize s).length :=
              Nat.one_le_iff_ne_zero.mpr (fun hcon =>
                hnorm_ne (List.length_eq_zero.mp hcon))
            omega
          obtain ⟨R, hmb, _⟩ := map_back_some idx (normalize s).length hidx
          rw [hmb]
          constructor
          · intro hcon
            cases hcon
          · intro hcon
            exfalso
            rcases hcon with h | h | ⟨pg2, hpg2, hinf⟩
            · exact hstrip_ne h
            · rw [h] at hf; cases hf
            · rw [hf] at hpg2
              cases hpg2
              apply hinf
              by_contra hcon2
              rw [← first_idx_eq_none_iff (normalize s) (normalize pg.text)] at hcon2
              rw [hcon2] at hfi
              cases hfi
  · intro pages2 h
    rw [search_source_text, search_source_text, h]

/-- Claim C1 (amended): when a page's text uses only the four standard
whitespace characters, searching for any contiguous substring `S` of the
page with a nonempty normalization succeeds and returns a contiguous
substring of the page whose whitespace-normalization equals that of `S`. -/
theorem search_substring_roundtrip (S : List Char) (p : Int)
    (pages : List SourcePage) (pg : SourcePage)
    (hfind : find_page pages p = some pg)
    (hagree : ws_agree pg.text = true)
    (hsub : S <:+: pg.text)
    (hnorm : normalize S ≠ []) :
    ∃ R, search_source_text S p pages = some R ∧ R <:+: pg.text ∧
      normalize R = normalize S := by
  have hstrip_ne : py_strip S ≠ [] := fun hcon =>
    hnorm ((normalize_eq_nil_iff S).mpr ((py_strip_eq_nil_iff S).mp hcon))
  have hS_ne : S ≠ [] := fun hcon => hstrip_ne (by rw [hcon]; exact py_strip_nil)
  have hinf : normalize S <:+: normalize pg.text := normalize_infix_mono hsub
  cases hfi : first_idx (normalize S) (normalize pg.text) with
  | none => exact absurd hinf (not_not.mp (by
      intro hcon
      exact ((first_idx_eq_none_iff _ _).mp hfi) hinf))
  | some idx =>
    have hpre := first_idx_some_prefix hfi
    have hidx : idx < (normalize pg.text).length := by
      have h1 := hpre.length_le
      rw [List.length_drop] at h1
      have h2 : 1 ≤ (normalize S).length :=
        Nat.one_le_iff_ne_zero.mpr (fun hcon =>
          hnorm (List.length_eq_zero.mp hcon))
      omega
    obtain ⟨R, hmb, hRinf⟩ := map_back_some idx (normalize S).length hidx
    refine ⟨R, ?_, hRinf, ?_⟩
    · rw [search_source_text,
        if_neg (fun hcon => hcon.elim hS_ne hstrip_ne), hfind]
      have hgoal : (if normalize S = [] then (none : Option (List Char))
          else
            match first_idx (normalize S) (normalize pg.text) with
            | none => none
            | some idx2 => map_back pg.text idx2 (normalize S).length) = some R := by
        rw [if_neg hnorm, hfi]
        exact hmb
      exact hgoal
    · exact map_back_normalize hagree hpre hnorm
        (by rw [normalize, py_strip_idem]) hmb
/-! ## merge_footnotes.py

Strings are `List Char`, lines are `List (List Char)` (split on `'\n'`),
Python dicts keyed by `int` are association lists with insertion-order
semantics (`dict_insert` overwrites in place, otherwise appends — exactly
Python's `d[k] = v`).  The fueled scanners model `re.finditer` / `re.sub`
left-to-right non-overlapping scanning; fuel `length + 1` is always enough
since every match consumes at least one character. -/

def dict_insert {α : Type} (k : Int) (v : α) : List (Int × α) → List (Int × α)
  | [] => [(k, v)]
  | (k2, v2) :: rest =>
    if k2 = k then (k, v) :: rest else (k2, v2) :: dict_insert k v rest

def dict_lookup {α : Type} (k : Int) (d : List (Int × α)) : Option α :=
  (d.find? (fun e => e.1 == k)).map (fun e => e.2)

def is_digit (c : Char) : Bool := '0' ≤ c && c ≤ '9'

def digits_to_int (ds : List Char) : Int :=
  ds.foldl (fun acc c => acc * 10 + ((c.toNat - '0'.toNat : Nat) : Int)) 0

/-- Decimal digits of a Nat (fueled; fuel `n + 1` suffices). -/
def nat_digits_f : Nat → Nat → List Char
  | 0, _ => []
  | fuel + 1, n =>
    if n < 10 then [Char.ofNat (n + '0'.toNat)]
    else nat_digits_f fuel (n / 10) ++ [Char.ofNat (n % 10 + '0'.toNat)]

/-- Python `str(n)` for an integer (only nonnegative values occur here:
footnote numbers are parsed from digit groups). -/
def int_repr (n : Int) : List Char :=
  if n < 0 then '-' :: nat_digits_f (n.natAbs + 1) n.natAbs
  else nat_digits_f (n.toNat + 1) n.toNat

/-- Match `FN_MARKER_RE = \s*\$\s*\^\{(\d+)\}\s*\$` anchored at the start of
`l`.  Returns `(int(group 1), group 0, rest)`.  The pattern is
backtracking-free: after each greedy `\s*` (resp. `\d+`) run the next
character is never in the same class, so the greedy match is the only one. -/
def match_marker (l : List Char) : Option (Int × List Char × List Char) :=
  let w1 := l.takeWhile re_ws
  match l.dropWhile re_ws with
  | '$' :: r2 =>
    let w2 := r2.takeWhile re_ws
    match r2.dropWhile re_ws with
    | '^' :: '\x7b' :: r4 =>
      let ds := r4.takeWhile is_digit
      if ds = [] then none
      else
        match r4.dropWhile is_digit with
        | '\x7d' :: r6 =>
          let w3 := r6.takeWhile re_ws
          match r6.dropWhile re_ws with
          | '$' :: r8 =>
            some (digits_to_int ds,
              w1 ++ '$' :: (w2 ++ '^' :: '\x7b' :: (ds ++ '\x7d' :: (w3 ++ ['$']))),
              r8)
          | _ => none
        | _ => none
    | _ => none
  | _ => none

/-- All `FN_MARKER_RE.finditer` capture values on a line, left to right,
non-overlapping (on failure the scan advances one character). -/
def find_markers_f : Nat → List Char → List Int
  | 0, _ => []
  | _ + 1, [] => []
  | fuel + 1, c :: rest =>
    match match_marker (c :: rest) with
    | some (n, _, r) => n :: find_markers_f fuel r
    | none => find_markers_f fuel rest

def find_markers (l : List Char) : List Int := find_markers_f (l.length + 1) l

/-- The entries `page_fns[n]` handed to `merge_refs_inline`
(`_llm_text` / `_text_source` are diagnostic-only and never read). -/
structure PageFn where
  fn_text : List Char
  page : Int
deriving DecidableEq

/-- `replace_ref` (lines 204-212): keep `group(0)` when the number is
unknown or its text is empty, else emit `f" [FN{n}: {text}]"`. -/
def replace_ref (fn_data : List (Int × PageFn)) (n : Int)
    (matched : List Char) : List Char :=
  match dict_lookup n fn_data with
  | none => matched
  | some entry =>
    if entry.fn_text ≠ [] then
      [' ', '[', 'F', 'N'] ++ int_repr n ++ [':', ' '] ++ entry.fn_text ++ [']']
    else matched

/-- `FN_MARKER_RE.sub(replace_ref, line)`. -/
def sub_markers_f (fn_data : List (Int × PageFn)) : Nat → List Char → List Char
  | 0, _ => []
  | _ + 1, [] => []
  | fuel + 1, c :: rest =>
    match match_marker (c :: rest) with
    | some (n, matched, r) =>
      replace_ref fn_data n matched ++ sub_markers_f fn_data fuel r
    | none => c :: sub_markers_f fn_data fuel rest

def sub_markers (fn_data : List (Int × PageFn)) (l : List Char) : List Char :=
  sub_markers_f fn_data (l.length + 1) l

def merge_refs_inline (lines : List (List Char))
    (fn_data : List (Int × PageFn)) : List (List Char) :=
  lines.map (sub_markers fn_data)

/-- `FN_TEXT_BLOCK_RE.match(line)`:
`^\s*\$\s*\^\{(\d+)\}\s*\$\s+(.+)$`, returning `(int(group 1), group 2)`.
The marker part is `match_marker` anchored at the line start; then `\s+`
needs at least one whitespace character. When only whitespace follows, the
engine backtracks `\s+` by one character so `(.+)` captures the final
whitespace character (possible only when at least two remain). -/
def fn_text_block_match (l : List Char) : Option (Int × List Char) :=
  match match_marker l with
  | none => none
  | some (n, _, r) =>
    let w := r.takeWhile re_ws
    let rest := r.dropWhile re_ws
    if w = [] then none
    else if rest ≠ [] then some (n, rest)
    else if 2 ≤ w.length then some (n, [w.getLastD ' '])
    else none

/-- `extract_ocr_footnotes` (lines 103-116): text blocks of one page,
last line wins; values are `group(2).strip()`. -/
def extract_ocr_footnotes (lines : List (List Char)) : List (Int × List Char) :=
  lines.foldl (fun footnotes line =>
    match fn_text_block_match line with
    | some (n, text) => dict_insert n (py_strip text) footnotes
    | none => footnotes) []

/-! ### Page splitting (lines 121-157) -/

structure PageBlock where
  page_number : Int
  start_delim : List Char
  lines : List (List Char)
  end_delim : List Char
deriving DecidableEq

/-- `^---\[Start PDF page (\d+)\]---\s*$` (and the `End` variant). -/
def parse_page_delim (pre : List Char) (l : List Char) : Option Int :=
  if pre.isPrefixOf l then
    let r := l.drop pre.length
    let ds := r.takeWhile is_digit
    if ds = [] then none
    else
      let r2 := r.dropWhile is_digit
      if ("]---".toList).isPrefixOf r2 then
        if (r2.drop 4).all re_ws then some (digits_to_int ds) else none
      else none
  else none

def page_start_match (l : List Char) : Option Int :=
  parse_page_delim ("---[Start PDF page ".toList) l

def page_end_match (l : List Char) : Option Int :=
  parse_page_delim ("---[End PDF page ".toList) l

/-- `content.split("\n")`. -/
def split_lines : List Char → List (List Char)
  | [] => [[]]
  | c :: rest =>
    if c = '\n' then [] :: split_lines rest
    else
      match split_lines rest with
      | [] => [[c]]
      | line :: more => (c :: line) :: more

def split_into_pages (content : List Char) :
    List (List Char) × List PageBlock :=
  let step := fun (st : List (List Char) × List PageBlock ×
      Option (Int × List Char × List (List Char))) (line : List Char) =>
    match page_start_match line with
    | some n => (st.1, st.2.1, some (n, line, []))
    | none =>
      match page_end_match line with
      | some _ =>
        match st.2.2 with
        | some (pn, sd, ls) =>
          let blk : PageBlock :=
            { page_number := pn, start_delim := sd, lines := ls,
              end_delim := line }
          (st.1, st.2.1 ++ [blk], none)
        | none => (st.1, st.2.1, none)
      | none =>
        match st.2.2 with
        | some (pn, sd, ls) => (st.1, st.2.1, some (pn, sd, ls ++ [line]))
        | none => (st.1 ++ [line], st.2.1, none)
  let st := (split_lines content).foldl step ([], [], none)
  (st.1, st.2.1)

/-! ### Removal of footnote text blocks (lines 160-196) -/

/-- `line.strip() == ""`. -/
def line_strip_empty (l : List Char) : Bool := l.all re_ws

/-- First index in `idxs` whose line has content (the scanning loops at
lines 180-192). -/
def find_content (lines : List (List Char)) (idxs : List Nat) : Option Nat :=
  idxs.find? (fun j => !(line_strip_empty (lines.getD j [])))

def fn_line_indices (lines : List (List Char)) (fns : List Int) : List Nat :=
  (List.range lines.length).filter (fun i =>
    match fn_text_block_match (lines.getD i []) with
    | some (n, _) => fns.contains n
    | none => false)

/-- The keep-decision of the cleaning loop (lines 174-194) for original
index `i`: footnote block lines are dropped, and a blank line is dropped
when the nearest contentful line below it — or, failing that, above it —
is a dropped block line. -/
def remove_keep (lines : List (List Char)) (fns : List Int) (i : Nat) : Bool :=
  let idxs := fn_line_indices lines fns
  if idxs.contains i then false
  else if line_strip_empty (lines.getD i []) then
    let next_content :=
      find_content lines (List.range' (i + 1) (lines.length - (i + 1)))
    let prev_content := find_content lines (List.range i).reverse
    !(match next_content with | some j => idxs.contains j | none => false) &&
    !(match prev_content with | some j => idxs.contains j | none => false)
  else true

def remove_fn_text_blocks (lines : List (List Char))
    (fn_numbers_to_remove : List Int) : List (List Char) :=
  let idxs := fn_line_indices lines fn_numbers_to_remove
  if idxs = [] then lines
  else
    ((List.range lines.length).filter (remove_keep lines fn_numbers_to_remove)).map
      (fun i => lines.getD i [])

/-! ### Classification inventory (lines 80-98) -/

structure ClassFn where
  fn_number : Int
  merge_status : List Char
  merge_location : List Char
  fn_text : List Char
deriving DecidableEq

structure ClassPage where
  page_number : Int
  footnotes : List ClassFn
deriving DecidableEq

/-- Inventory value `{page, merge_status, merge_location, _llm_text}`;
`original_page` models the `_original_page` audit key added by attribution
correction (absent, i.e. `none`, until then). -/
structure FnData where
  page : Int
  merge_status : List Char
  merge_location : List Char
  llm_text : List Char
  original_page : Option Int
deriving DecidableEq

/-- `_extract_fn_inventory`: entries with `fn_number > 0` only; later pages
overwrite earlier ones for the same number. -/
def extract_fn_inventory (pages : List ClassPage) : List (Int × FnData) :=
  pages.foldl (fun footnotes page =>
    page.footnotes.foldl (fun footnotes fn =>
      if fn.fn_number > 0 then
        dict_insert fn.fn_number
          { page := page.page_number, merge_status := fn.merge_status,
            merge_location := fn.merge_location, llm_text := fn.fn_text,
            original_page := none } footnotes
      else footnotes) footnotes) []

/-! ### process_document (lines 222-358) -/

def set_add (x : Int) (s : List Int) : List Int :=
  if s.contains x then s else s ++ [x]

/-- Pre-scan (lines 250-255): `fn_number -> set of pages with markers`. -/
def marker_pages_of (blocks : List PageBlock) : List (Int × List Int) :=
  blocks.foldl (fun mp block =>
    block.lines.foldl (fun mp line =>
      (find_markers line).foldl (fun mp n =>
        match dict_lookup n mp with
        | some s => dict_insert n (set_add block.page_number s) mp
        | none => dict_insert n (set_add block.page_number []) mp) mp) mp) []

/-- Pre-scan (lines 257-263): document-wide `fn_number -> fn_text`,
later blocks overwrite earlier ones. -/
def collect_ocr_texts (blocks : List PageBlock) : List (Int × List Char) :=
  blocks.foldl (fun ocr block =>
    (extract_ocr_footnotes block.lines).foldl (fun ocr e =>
      dict_insert e.1 e.2 ocr) ocr) []

/-- Python `min` over the (nonempty) page set. -/
def set_min : List Int → Option Int
  | [] => none
  | x :: rest =>
    match set_min rest with
    | none => some x
    | some m => some (min x m)

/-- Attribution correction (lines 266-274).  The `none` arm of `set_min` is
unreachable: survey sets are built by `set_add` and are nonempty. -/
def correct_inventory (mp : List (Int × List Int))
    (inv : List (Int × FnData)) : List (Int × FnData) :=
  inv.map (fun e =>
    match dict_lookup e.1 mp with
    | none => e
    | some actual_pages =>
      if actual_pages.contains e.2.page then e
      else
        match set_min actual_pages with
        | none => e
        | some corrected =>
          (e.1, { e.2 with page := corrected, original_page := some e.2.page }))

/-- Lines 283-295: classification branch of the per-page footnote set;
also counts the `total_no_ocr_text` increments. -/
def page_fns_classification (cfns : List (Int × FnData))
    (ocr_texts : List (Int × List Char)) (pg_num : Int) :
    List (Int × PageFn) × Nat :=
  cfns.foldl (fun acc e =>
    if e.2.page == pg_num then
      let ocr_text := (dict_lookup e.1 ocr_texts).getD []
      (dict_insert e.1 { fn_text := ocr_text, page := pg_num } acc.1,
        acc.2 + (if ocr_text = [] then 1 else 0))
    else acc) ([], 0)

/-- Lines 297-302: pure-OCR fallback branch. -/
def page_fns_fallback (pg_num : Int) (lines : List (List Char)) :
    List (Int × PageFn) :=
  (extract_ocr_footnotes lines).map
    (fun e => (e.1, { fn_text := e.2, page := pg_num }))

/-- Lines 308-313: body references on the page that match `page_fns`. -/
def refs_on_page (lines : List (List Char))
    (page_fns : List (Int × PageFn)) : List Int :=
  lines.foldl (fun refs line =>
    (find_markers line).foldl (fun refs n =>
      if (dict_lookup n page_fns).isSome then set_add n refs else refs) refs) []

def insert_sorted (x : Int) : List Int → List Int
  | [] => [x]
  | y :: rest => if y ≤ x then y :: insert_sorted x rest else x :: y :: rest

/-- Python `sorted` on a set of ints (ascending). -/
def sort_ints (l : List Int) : List Int :=
  l.foldl (fun acc x => insert_sorted x acc) []

structure PageStat where
  page : Int
  fn_numbers : List Int
  merged_refs : List Int
  unmatched : List Int
  no_ocr_text : List Int
deriving DecidableEq

structure MergeStats where
  source : List Char
  total_found : Nat
  total_merged : Nat
  total_unmatched : Nat
  total_no_ocr_text : Nat
  pages_with_footnotes : Nat
  page_details : List PageStat
deriving DecidableEq

/-- Loop body of lines 276-344 for one page block.  Returns the processed
lines, the counter increments `(found, merged, unmatched, no_ocr_text)` and
the optional page-stats entry. -/
def process_block (use_cls : Bool) (cfns : List (Int × FnData))
    (ocr_texts : List (Int × List Char)) (block : PageBlock) :
    List (List Char) × Nat × Nat × Nat × Nat × Option PageStat :=
  let pf := if use_cls
    then page_fns_classification cfns ocr_texts block.page_number
    else (page_fns_fallback block.page_number block.lines, 0)
  let page_fns := pf.1
  if page_fns.isEmpty then (block.lines, 0, 0, 0, pf.2, none)
  else
    let refs := refs_on_page block.lines page_fns
    let cleaned := remove_fn_text_blocks block.lines (page_fns.map (fun e => e.1))
    let merged := merge_refs_inline cleaned page_fns
    let unmatched := (page_fns.map (fun e => e.1)).filter
      (fun n => !(refs.contains n))
    let no_ocr := page_fns.filterMap
      (fun e => if e.2.fn_text = [] then some e.1 else none)
    let stat : PageStat :=
      { page := block.page_number,
        fn_numbers := sort_ints (page_fns.map (fun e => e.1)),
        merged_refs := sort_ints refs, unmatched := sort_ints unmatched,
        no_ocr_text := sort_ints no_ocr }
    (merged, page_fns.length, refs.length, unmatched.length, pf.2, some stat)

/-- `"\n".join`. -/
def join_nl : List (List Char) → List Char
  | [] => []
  | [p] => p
  | p :: rest => p ++ '\n' :: join_nl rest

/-- Python truthiness of `classification_fns` (`None` and `{}` are falsy). -/
def truthy_inventory : Option (List (Int × FnData)) → Bool
  | none => false
  | some l => !l.isEmpty

def process_document (content : List Char)
    (classification_fns : Option (List (Int × FnData))) :
    List Char × MergeStats :=
  let pb := split_into_pages content
  let preamble := pb.1
  let blocks := pb.2
  let use_cls := truthy_inventory classification_fns
  let source := if use_cls then "classification+ocr".toList else "ocr_only".toList
  let marker_pages := marker_pages_of blocks
  let ocr_texts := collect_ocr_texts blocks
  let cfns0 := classification_fns.getD []
  let cfns := if use_cls then correct_inventory marker_pages cfns0 else cfns0
  let init : List (List Char) × Nat × Nat × Nat × Nat × List PageStat :=
    ((if preamble.isEmpty then [] else [join_nl preamble]), 0, 0, 0, 0, [])
  let acc := blocks.foldl (fun acc block =>
    let r := process_block use_cls cfns ocr_texts block
    (acc.1 ++ [block.start_delim, join_nl r.1, block.end_delim],
      acc.2.1 + r.2.1, acc.2.2.1 + r.2.2.1, acc.2.2.2.1 + r.2.2.2.1,
      acc.2.2.2.2.1 + r.2.2.2.2.1,
      acc.2.2.2.2.2 ++ (match r.2.2.2.2.2 with
        | some st => [st]
        | none => []))) init
  (join_nl acc.1,
    { source := source, total_found := acc.2.1, total_merged := acc.2.2.1,
      total_unmatched := acc.2.2.2.1, total_no_ocr_text := acc.2.2.2.2.1,
      pages_with_footnotes := acc.2.2.2.2.2.length,
      page_details := acc.2.2.2.2.2 })

/-! ### Dictionary and list helper lemmas -/

theorem contains_true_iff {α : Type} [BEq α] [LawfulBEq α] (l : List α) (a : α) :
    l.contains a = true ↔ a ∈ l := by
  simp [List.contains, List.elem_iff]

theorem dict_lookup_insert_self {α : Type} (k : Int) (v : α) :
    ∀ (d : List (Int × α)), dict_lookup k (dict_insert k v d) = some v := by
  intro d
  induction d with
  | nil => simp [dict_insert, dict_lookup, List.find?]
  | cons e rest ih =>
    by_cases h : e.1 = k
    · simp [dict_insert, h, dict_lookup, List.find?]
    · cases e with
      | mk k2 v2 =>
        simp only at h
        rw [dict_insert]
        rw [if_neg h]
        rw [dict_lookup, List.find?]
        have hbeq : (k2 == k) = false := by simpa using h
        rw [hbeq]
        exact ih

theorem dict_lookup_insert_ne {α : Type} {k n : Int} (hne : k ≠ n) (v : α) :
    ∀ (d : List (Int × α)), dict_lookup n (dict_insert k v d) = dict_lookup n d := by
  intro d
  induction d with
  | nil =>
    simp only [dict_insert, dict_lookup, List.find?]
    have hbeq : (k == n) = false := by simpa using hne
    rw [hbeq]
  | cons e rest ih =>
    cases e with
    | mk k2 v2 =>
      by_cases h : k2 = k
      · subst h
        rw [dict_insert, if_pos rfl]
        rw [dict_lookup, List.find?, dict_lookup, List.find?]
        have hbeq : (k2 == n) = false := by simpa using hne
        rw [hbeq]
      · rw [dict_insert, if_neg h]
        rw [dict_lookup, List.find?, dict_lookup, List.find?]
        cases hbeq : (k2 == n) with
        | true => rfl
        | false => exact ih

theorem mem_dict_insert {α : Type} {k : Int} {v : α} {e : Int × α} :
    ∀ {d : List (Int × α)}, e ∈ dict_insert k v d → e = (k, v) ∨ e ∈ d := by
  intro d
  induction d with
  | nil =>
    intro h
    simp [dict_insert] at h
    exact Or.inl h
  | cons f rest ih =>
    intro h
    cases f with
    | mk k2 v2 =>
      by_cases hk : k2 = k
      · rw [dict_insert, if_pos hk] at h
        rcases List.mem_cons.mp h with h | h
        · exact Or.inl h
        · exact Or.inr (List.mem_cons_of_mem _ h)
      · rw [dict_insert, if_neg hk] at h
        rcases List.mem_cons.mp h with h | h
        · exact Or.inr (by rw [h]; exact List.mem_cons_self _ _)
        · rcases ih h with h | h
          · exact Or.inl h
          · exact Or.inr (List.mem_cons_of_mem _ h)

theorem dict_insert_keys_nodup {α : Type} (k : Int) (v : α) :
    ∀ {d : List (Int × α)}, (d.map Prod.fst).Nodup →
      ((dict_insert k v d).map Prod.fst).Nodup := by
  intro d
  induction d with
  | nil =>
    intro _
    simp [dict_insert]
  | cons e rest ih =>
    intro h
    cases e with
    | mk k2 v2 =>
      simp only [List.map_cons, List.nodup_cons] at h
      by_cases hk : k2 = k
      · subst hk
        rw [dict_insert, if_pos rfl]
        simp only [List.map_cons, List.nodup_cons]
        exact h
      · rw [dict_insert, if_neg hk]
        simp only [List.map_cons, List.nodup_cons]
        constructor
        · intro hmem
          rcases List.mem_map.mp hmem with ⟨f, hf, hfst⟩
          rcases mem_dict_insert hf with hfe | hfe
          · rw [hfe] at hfst
            exact hk hfst.symm
          · exact h.1 (List.mem_map.mpr ⟨f, hfe, hfst⟩)
        · exact ih h.2

/-- A dictionary with distinct keys has at most the looked-up value
under key `n`. -/
theorem filterMap_key_eq_lookup {α : Type} (n : Int) :
    ∀ {d : List (Int × α)}, (d.map Prod.fst).Nodup →
      d.filterMap (fun e => if e.1 = n then some e.2 else none) =
        (dict_lookup n d).toList := by
  intro d
  induction d with
  | nil => intro _; rfl
  | cons e rest ih =>
    intro h
    cases e with
    | mk k v =>
      simp only [List.map_cons, List.nodup_cons] at h
      by_cases hk : k = n
      · subst hk
        rw [List.filterMap_cons]
        simp only [if_pos rfl]
        have hrest : rest.filterMap (fun e => if e.1 = k then some e.2 else none) = [] := by
          rw [List.filterMap_eq_nil_iff]
          intro e he
          by_cases hek : e.1 = k
          · exact absurd (List.mem_map.mpr ⟨e, he, hek⟩) h.1
          · simp [hek]
        rw [hrest, dict_lookup, List.find?]
        simp
      · rw [List.filterMap_cons]
        simp only [if_neg hk]
        rw [dict_lookup, List.find?]
        have hbeq : (k == n) = false := by simpa using hk
        rw [hbeq]
        exact ih h.2

theorem range_map_getD (lines : List (List Char)) :
    (List.range lines.length).map (fun i => lines.getD i []) = lines := by
  induction lines with
  | nil => rfl
  | cons l rest ih =>
    rw [List.length_cons, List.range_succ_eq_map, List.map_cons, List.map_map]
    have hcomp : (fun i => (l :: rest).getD i []) ∘ Nat.succ =
        fun i => rest.getD i [] := by
      funext i
      rfl
    rw [hcomp, ih]
    rfl

/-! ### Properties of `remove_fn_text_blocks` (claims C2, C5) -/

theorem remove_keep_of_no_idxs {lines : List (List Char)} {fns : List Int}
    (h : fn_line_indices lines fns = []) (i : Nat) :
    remove_keep lines fns i = true := by
  rw [remove_keep]
  simp only [h]
  have h1 : ∀ (o : Option Nat),
      (match o with | some j => List.contains [] j | none => false) = false := by
    intro o
    cases o with
    | none => rfl
    | some j => rfl
  rw [h1, h1]
  have h2 : List.contains ([] : List Nat) i = false := rfl
  rw [h2]
  simp

theorem remove_eq_filter (lines : List (List Char)) (fns : List Int) :
    remove_fn_text_blocks lines fns =
      ((List.range lines.length).filter (remove_keep lines fns)).map
        (fun i => lines.getD i []) := by
  rw [remove_fn_text_blocks]
  by_cases h : fn_line_indices lines fns = []
  · rw [if_pos h]
    rw [List.filter_eq_self.mpr (fun i _ => remove_keep_of_no_idxs h i)]
    exact (range_map_getD lines).symm
  · rw [if_neg h]

/-- No footnote text block line for a removed number survives the cleaning
pass. -/
theorem remove_no_block_line {lines : List (List Char)} {fns : List Int}
    {l : List Char} {n : Int} {t : List Char}
    (hmem : l ∈ remove_fn_text_blocks lines fns)
    (hmatch : fn_text_block_match l = some (n, t)) :
    fns.contains n = false := by
  rw [remove_eq_filter] at hmem
  rcases List.mem_map.mp hmem with ⟨i, hi, hl⟩
  rcases List.mem_filter.mp hi with ⟨hrange, hkeep⟩
  by_contra hcon
  have hcontains : fns.contains n = true := by
    cases hc : fns.contains n
    · exact absurd hc hcon
    · rfl
  have hidx : i ∈ fn_line_indices lines fns := by
    rw [fn_line_indices, List.mem_filter]
    refine ⟨hrange, ?_⟩
    rw [hl, hmatch]
    exact hcontains
  rw [remove_keep] at hkeep
  simp only [(contains_true_iff _ _).mpr hidx, if_pos] at hkeep
  cases hkeep

/-! ## Claim C2: cross-page resolution in the fallback path -/

/-- Page 1 carries the inline reference to footnote 1; footnote 1's trailing
text block sits on page 2; no location records are supplied. -/
def fallback_two_page_doc : List Char :=
  ("---[Start PDF page 1]---\n" ++
   "Intro text $ ^{1} $ more.\n" ++
   "---[End PDF page 1]---\n" ++
   "---[Start PDF page 2]---\n" ++
   "Body.\n" ++
   "\n" ++
   "$ ^{1} $ The footnote text.\n" ++
   "---[End PDF page 2]---").toList

/-- Claim C2 is false on the code: in the fallback path the annotation is
NOT inserted at the cross-page reference.  Page 1's inline marker survives
verbatim and no `[FN1: ...]` annotation appears anywhere in the output
(page 2's trailing block and its separating blank line are removed). -/
theorem c2_counterexample :
    (process_document fallback_two_page_doc none).1 =
      ("---[Start PDF page 1]---\n" ++
       "Intro text $ ^{1} $ more.\n" ++
       "---[End PDF page 1]---\n" ++
       "---[Start PDF page 2]---\n" ++
       "Body.\n" ++
       "---[End PDF page 2]---").toList ∧
    ¬ ("[FN1:".toList <:+: (process_document fallback_two_page_doc none).1) := by
  constructor
  · decide
  · decide

/-- Claim C2 (amended): without location records, a page that holds no
footnote text block passes through the merge completely unchanged — in
particular no annotation is inserted at its inline reference markers — and
the page that holds an applicable text block has every such block line
removed. -/
theorem c2_amended :
    (∀ (cfns : List (Int × FnData)) (ocr : List (Int × List Char))
        (block : PageBlock),
      extract_ocr_footnotes block.lines = [] →
      process_block false cfns ocr block = (block.lines, 0, 0, 0, 0, none)) ∧
    (∀ (lines : List (List Char)) (fns : List Int) (l : List Char)
        (n : Int) (t : List Char),
      l ∈ remove_fn_text_blocks lines fns →
      fn_text_block_match l = some (n, t) → fns.contains n = false) := by
  constructor
  · intro cfns ocr block hext
    rw [process_block]
    simp only [Bool.false_eq_true, if_neg (by simp : ¬ (False : Prop)),
      page_fns_fallback, hext, List.map_nil]
    rfl
  · intro lines fns l n t hmem hmatch
    exact remove_no_block_line hmem hmatch

def c2_demo_block : PageBlock :=
  { page_number := 1, start_delim := [],
    lines := ["See $ ^{1} $.".toList], end_delim := [] }

theorem c2_amended_witness :
    process_block false [] [] c2_demo_block =
      (c2_demo_block.lines, 0, 0, 0, 0, none) :=
  c2_amended.1 [] [] c2_demo_block (by decide)

/-! ## Claim C5: trailing block removal and adjacent blank lines -/

def c5_demo_lines : List (List Char) :=
  ["$ ^{1} $ note".toList, [], [], "x".toList]

/-- Claim C5 is false on the code: removing footnote 1's text block deletes
BOTH blank lines that follow it (the whole blank run), not "at most one
immediately adjacent blank line on either side". -/
theorem c5_counterexample :
    remove_fn_text_blocks c5_demo_lines [1] = ["x".toList] ∧
    c5_demo_lines.countP line_strip_empty = 2 := by
  constructor
  · decide
  · decide

/-- Claim C5 (amended): the cleaning pass keeps exactly the original lines
whose index satisfies `remove_keep`: non-block lines that are either
non-blank, or blank with the nearest contentful line below (and above)
not a removed block line.  So an entire blank run adjacent to a removed
block is deleted, and a blank line whose nearest contentful neighbours
are both retained is kept. -/
theorem c5_amended (lines : List (List Char)) (fns : List Int) :
    remove_fn_text_blocks lines fns =
      ((List.range lines.length).filter (remove_keep lines fns)).map
        (fun i => lines.getD i []) ∧
    (∀ i : Nat, remove_keep lines fns i = true ↔
      ((fn_line_indices lines fns).contains i = false ∧
        (line_strip_empty (lines.getD i []) = true →
          (∀ j, find_content lines
              (List.range' (i + 1) (lines.length - (i + 1))) = some j →
            (fn_line_indices lines fns).contains j = false) ∧
          (∀ j, find_content lines (List.range i).reverse = some j →
            (fn_line_indices lines fns).contains j = false)))) := by
  refine ⟨remove_eq_filter lines fns, ?_⟩
  intro i
  simp only [remove_keep]
  generalize find_content lines (List.range' (i + 1) (lines.length - (i + 1))) = nc
  generalize find_content lines (List.range i).reverse = pc
  cases hcb : (fn_line_indices lines fns).contains i <;>
    cases hsb : line_strip_empty (lines.getD i []) <;>
      cases nc <;> cases pc <;>
        simp [hcb, hsb]

theorem c5_amended_witness :
    remove_fn_text_blocks c5_demo_lines [] =
      ((List.range c5_demo_lines.length).filter (remove_keep c5_demo_lines [])).map
        (fun i => c5_demo_lines.getD i []) :=
  (c5_amended c5_demo_lines []).1

/-! ### Last-write-wins characterization of the dictionary folds -/

theorem getLast?_cons_or {α : Type} (a : α) (l : List α) :
    (a :: l).getLast? = l.getLast?.or (some a) := by
  have h := @List.getLast?_append _ [a] l
  simpa using h

/-- Folding `dict_insert` events over a list: the lookup afterwards is the
last inserted value for the key, else the lookup in the initial dictionary. -/
theorem lookup_foldl_insert {α β : Type}
    (step : List (Int × α) → β → List (Int × α)) (f : β → Option (Int × α))
    (hstep : ∀ d x, step d x = match f x with
      | some e => dict_insert e.1 e.2 d
      | none => d) (n : Int) :
    ∀ (xs : List β) (d0 : List (Int × α)),
      dict_lookup n (xs.foldl step d0) =
        match ((xs.filterMap f).filterMap
            (fun e => if e.1 = n then some e.2 else none)).getLast? with
        | some v => some v
        | none => dict_lookup n d0 := by
  intro xs
  induction xs with
  | nil => intro d0; rfl
  | cons x rest ih =>
    intro d0
    rw [List.foldl_cons, ih]
    cases hf : f x with
    | none => rw [List.filterMap_cons_none hf, hstep d0 x, hf]
    | some e =>
      cases e with
      | mk k v =>
        rw [hstep d0 x, hf, List.filterMap_cons_some hf]
        by_cases hk : k = n
        · subst hk
          rw [List.filterMap_cons_some
            (f := fun (e : Int × α) => if e.1 = k then some e.2 else none)
            (b := v) (by simp), getLast?_cons_or]
          cases hlast : ((rest.filterMap f).filterMap
              (fun e => if e.1 = k then some e.2 else none)).getLast? with
          | none => simp [Option.or, dict_lookup_insert_self]
          | some w => simp [Option.or]
        · rw [List.filterMap_cons_none
            (f := fun (e : Int × α) => if e.1 = n then some e.2 else none)
            (by simp [hk])]
          cases hlast : ((rest.filterMap f).filterMap
              (fun e => if e.1 = n then some e.2 else none)).getLast? with
          | none => simp [dict_lookup_insert_ne hk]
          | some w => rfl

theorem foldl_insert_keys_nodup {α β : Type}
    (step : List (Int × α) → β → List (Int × α)) (f : β → Option (Int × α))
    (hstep : ∀ d x, step d x = match f x with
      | some e => dict_insert e.1 e.2 d
      | none => d) :
    ∀ (xs : List β) (d0 : List (Int × α)), (d0.map Prod.fst).Nodup →
      ((xs.foldl step d0).map Prod.fst).Nodup := by
  intro xs
  induction xs with
  | nil => intro d0 h; exact h
  | cons x rest ih =>
    intro d0 h
    rw [List.foldl_cons]
    apply ih
    rw [hstep d0 x]
    cases hf : f x with
    | none => exact h
    | some e => exact dict_insert_keys_nodup e.1 e.2 h

theorem foldl_insert_mem_prop {α β : Type}
    (step : List (Int × α) → β → List (Int × α)) (f : β → Option (Int × α))
    (hstep : ∀ d x, step d x = match f x with
      | some e => dict_insert e.1 e.2 d
      | none => d)
    (P : Int × α → Prop) (hf : ∀ x e, f x = some e → P e) :
    ∀ (xs : List β) (d0 : List (Int × α)), (∀ e ∈ d0, P e) →
      ∀ e ∈ xs.foldl step d0, P e := by
  intro xs
  induction xs with
  | nil => intro d0 h; exact h
  | cons x rest ih =>
    intro d0 h
    rw [List.foldl_cons]
    apply ih
    intro e he
    rw [hstep d0 x] at he
    cases hfx : f x with
    | none => rw [hfx] at he; exact h e he
    | some e2 =>
      rw [hfx] at he
      rcases mem_dict_insert he with heq | hmem
      · rw [heq]
        exact hf x e2 hfx
      · exact h e hmem

/-- The footnote texts contributed for number `n` by the text-block lines
of a page, in line order. -/
def line_block_texts (n : Int) (lines : List (List Char)) : List (List Char) :=
  lines.filterMap (fun l =>
    match fn_text_block_match l with
    | some e => if e.1 = n then some (py_strip e.2) else none
    | none => none)

/-- The footnote texts contributed for number `n` by the whole document,
in page order then line order. -/
def block_texts (n : Int) (blocks : List PageBlock) : List (List Char) :=
  blocks.flatMap (fun b => line_block_texts n b.lines)

theorem extract_ocr_footnotes_lookup (n : Int) (lines : List (List Char)) :
    dict_lookup n (extract_ocr_footnotes lines) =
      (line_block_texts n lines).getLast? := by
  have h := lookup_foldl_insert
    (fun (footnotes : List (Int × List Char)) (line : List Char) =>
      match fn_text_block_match line with
      | some (m, text) => dict_insert m (py_strip text) footnotes
      | none => footnotes)
    (fun line => match fn_text_block_match line with
      | some e => some (e.1, py_strip e.2)
      | none => none)
    (by
      intro d x
      rcases h2 : fn_text_block_match x with _ | ⟨k, t⟩ <;> simp [h2])
    n lines []
  rw [List.filterMap_filterMap] at h
  have hcomp : lines.filterMap (fun x =>
      (match fn_text_block_match x with
        | some e => some (e.1, py_strip e.2)
        | none => none).bind (fun e => if e.1 = n then some e.2 else none)) =
      line_block_texts n lines := by
    rw [line_block_texts]
    apply List.filterMap_congr
    intro l _
    rcases h2 : fn_text_block_match l with _ | ⟨k, t⟩
    · simp
    · by_cases hk : k = n <;> simp [hk]
  rw [hcomp] at h
  rw [extract_ocr_footnotes, h]
  cases (line_block_texts n lines).getLast? with
  | none => rfl
  | some v => rfl

theorem extract_ocr_footnotes_keys_nodup (lines : List (List Char)) :
    ((extract_ocr_footnotes lines).map Prod.fst).Nodup := by
  rw [extract_ocr_footnotes]
  apply foldl_insert_keys_nodup
    (fun (footnotes : List (Int × List Char)) (line : List Char) =>
      match fn_text_block_match line with
      | some (m, text) => dict_insert m (py_strip text) footnotes
      | none => footnotes)
    (fun line => match fn_text_block_match line with
      | some e => some (e.1, py_strip e.2)
      | none => none)
    (by
      intro d x
      rcases h2 : fn_text_block_match x with _ | ⟨k, t⟩ <;> simp [h2])
    lines []
  simp

/-- The retained text for a number is exactly the LAST text block for it
in document order (blocks in order, lines top to bottom). -/
theorem collect_ocr_texts_lookup (n : Int) (blocks : List PageBlock) :
    dict_lookup n (collect_ocr_texts blocks) =
      (block_texts n blocks).getLast? := by
  suffices h : ∀ (bs : List PageBlock) (d0 : List (Int × List Char)),
      dict_lookup n (bs.foldl (fun ocr block =>
        (extract_ocr_footnotes block.lines).foldl (fun ocr e =>
          dict_insert e.1 e.2 ocr) ocr) d0) =
        match (block_texts n bs).getLast? with
        | some v => some v
        | none => dict_lookup n d0 by
    rw [collect_ocr_texts, h blocks []]
    cases (block_texts n blocks).getLast? with
    | none => rfl
    | some v => rfl
  intro bs
  induction bs with
  | nil => intro d0; rfl
  | cons b rest ih =>
    intro d0
    rw [List.foldl_cons, ih]
    have hpairs := lookup_foldl_insert
      (fun (ocr : List (Int × List Char)) (e : Int × List Char) =>
        dict_insert e.1 e.2 ocr)
      (fun e => some e) (by intro d x; rfl) n
      (extract_ocr_footnotes b.lines) d0
    have hfm : (extract_ocr_footnotes b.lines).filterMap some =
        extract_ocr_footnotes b.lines := List.filterMap_some _
    rw [hfm] at hpairs
    rw [filterMap_key_eq_lookup n (extract_ocr_footnotes_keys_nodup b.lines)] at hpairs
    rw [extract_ocr_footnotes_lookup] at hpairs
    rw [hpairs]
    have hsplit : block_texts n (b :: rest) =
        line_block_texts n b.lines ++ block_texts n rest := by
      rw [block_texts, List.flatMap_cons]
      rfl
    rw [hsplit, List.getLast?_append]
    cases hrest : (block_texts n rest).getLast? with
    | some v => rfl
    | none =>
      simp only [Option.or]
      cases hline : (line_block_texts n b.lines).getLast? with
      | none => rfl
      | some v => rfl

theorem set_min_spec :
    ∀ (S : List Int), S ≠ [] →
      ∃ m, set_min S = some m ∧ m ∈ S ∧ ∀ x ∈ S, m ≤ x := by
  intro S
  induction S with
  | nil => intro h; exact absurd rfl h
  | cons x rest ih =>
    intro _
    by_cases hrest : rest = []
    · subst hrest
      refine ⟨x, by simp [set_min], List.mem_cons_self _ _, ?_⟩
      intro y hy
      simp at hy
      rw [hy]
    · obtain ⟨m, hm, hmem, hbound⟩ := ih hrest
      refine ⟨min x m, ?_, ?_, ?_⟩
      · rw [set_min, hm]
      · rcases min_choice x m with h | h
        · rw [h]
          exact List.mem_cons_self _ _
        · rw [h]
          exact List.mem_cons_of_mem _ hmem
      · intro y hy
        rcases List.mem_cons.mp hy with h | h
        · rw [h]
          exact min_le_left _ _
        · exact le_trans (min_le_right _ _) (hbound y h)
theorem lookup_of_mem_nodup {α : Type} :
    ∀ {d : List (Int × α)}, (d.map Prod.fst).Nodup →
      ∀ {k : Int} {v : α}, (k, v) ∈ d → dict_lookup k d = some v := by
  intro d
  induction d with
  | nil =>
    intro _ k v hmem
    simp at hmem
  | cons e rest ih =>
    intro hnodup k v hmem
    cases e with
    | mk k2 v2 =>
      simp only [List.map_cons, List.nodup_cons] at hnodup
      rcases List.mem_cons.mp hmem with h | h
      · cases h
        simp [dict_lookup, List.find?]
      · by_cases hk : k2 = k
        · exfalso
          apply hnodup.1
          apply List.mem_map.mpr
          exact ⟨(k, v), h, hk.symm⟩
        · rw [dict_lookup, List.find?]
          have hbeq : (k2 == k) = false := by simpa using hk
          rw [hbeq]
          exact ih hnodup.2 h

/-! ## Claim C3: attribution correction -/

/-- Claim C3: a location record whose claimed page is in the survey set, or
whose number has no survey set at all, is left unmodified; otherwise its
page is reassigned to the minimum of the survey set and the original claim
is retained in the `_original_page` audit field. -/
theorem correct_inventory_spec (mp : List (Int × List Int))
    (inv : List (Int × FnData)) (i : Nat) (n : Int) (d : FnData)
    (hi : inv[i]? = some (n, d)) :
    (dict_lookup n mp = none → (correct_inventory mp inv)[i]? = some (n, d)) ∧
    (∀ S, dict_lookup n mp = some S →
      (S.contains d.page = true → (correct_inventory mp inv)[i]? = some (n, d)) ∧
      (S.contains d.page = false → S ≠ [] →
        ∃ m, set_min S = some m ∧ m ∈ S ∧ (∀ x ∈ S, m ≤ x) ∧
          (correct_inventory mp inv)[i]? =
            some (n, { d with page := m, original_page := some d.page }))) := by
  have hmap : (correct_inventory mp inv)[i]? =
      Option.map (fun (e : Int × FnData) =>
        match dict_lookup e.1 mp with
        | none => e
        | some actual_pages =>
          if actual_pages.contains e.2.page then e
          else
            match set_min actual_pages with
            | none => e
            | some corrected =>
              (e.1,
                { e.2 with
                  page := corrected,
                  original_page := some e.2.page })) inv[i]? := by
    rw [correct_inventory, List.getElem?_map]
  constructor
  · intro hlk
    rw [hmap, hi]
    simp only [Option.map_some']
    rw [hlk]
  · intro S hlk
    constructor
    · intro hcontains
      rw [hmap, hi]
      simp only [Option.map_some']
      rw [hlk]
      simp only [hcontains, if_pos]
    · intro hcontains hne
      obtain ⟨m, hm, hmem, hbound⟩ := set_min_spec S hne
      refine ⟨m, hm, hmem, hbound, ?_⟩
      rw [hmap, hi]
      simp only [Option.map_some']
      rw [hlk]
      simp only [hcontains]
      rw [if_neg (by simp), hm]

def c3_demo_data : FnData :=
  { page := 5, merge_status := "merged".toList, merge_location := [],
    llm_text := [], original_page := none }

/-- The spec's worked example: a record claims footnote 7 on page 5 while
its markers occur only on pages 8 and 9; correction moves it to page 8 and
audits the original claim. -/
theorem correct_inventory_witness :
    (correct_inventory [(7, [8, 9])] [(7, c3_demo_data)])[0]? =
      some (7, { c3_demo_data with page := 8, original_page := some 5 }) := by
  obtain ⟨m, hm, _, _, heq⟩ :=
    ((correct_inventory_spec [(7, [8, 9])] [(7, c3_demo_data)] 0 7 c3_demo_data
      (by decide)).2 [8, 9] (by decide)).2 (by decide) (by decide)
  have hm8 : m = 8 := by
    have : set_min [(8 : Int), 9] = some 8 := by decide
    rw [this] at hm
    cases hm
    rfl
  rw [hm8] at heq
  exact heq

/-! ## Claim C9: last-write-wins for duplicated text blocks -/

def fallback_dup_text_doc : List Char :=
  ("---[Start PDF page 1]---\n" ++
   "See note $ ^{5} $ here.\n" ++
   "\n" ++
   "$ ^{5} $ AAA\n" ++
   "---[End PDF page 1]---\n" ++
   "---[Start PDF page 2]---\n" ++
   "Stuff.\n" ++
   "\n" ++
   "$ ^{5} $ BBB\n" ++
   "---[End PDF page 2]---").toList

/-- Claim C9 is false on the code: footnote 5's text block appears on pages
1 ("AAA") and 2 ("BBB"); the extraction map retains the later "BBB", but in
the fallback path the inline substitution on page 1 uses page 1's own
"AAA" — so the later page's text is NOT used for every substitution. -/
theorem c9_counterexample :
    dict_lookup 5 (collect_ocr_texts (split_into_pages fallback_dup_text_doc).2) =
      some ("BBB".toList) ∧
    ("[FN5: AAA]".toList <:+: (process_document fallback_dup_text_doc none).1) ∧
    ¬ ("[FN5: BBB]".toList <:+: (process_document fallback_dup_text_doc none).1) := by
  refine ⟨by decide, ⟨("---[Start PDF page 1]---\nSee note ").toList,
    (" here.\n---[End PDF page 1]---\n---[Start PDF page 2]---\nStuff.\n" ++
     "---[End PDF page 2]---").toList, by decide⟩, by decide⟩

theorem page_fns_classification_mem :
    ∀ (cfns : List (Int × FnData)) (ocr : List (Int × List Char)) (p : Int)
      (acc : List (Int × PageFn) × Nat)
      (hacc : ∀ e ∈ acc.1, (e : Int × PageFn).2.fn_text =
        (dict_lookup e.1 ocr).getD [] ∧ e.2.page = p)
      (e : Int × PageFn),
      e ∈ (cfns.foldl (fun acc e =>
        if e.2.page == p then
          (dict_insert e.1
            { fn_text := (dict_lookup e.1 ocr).getD [], page := p } acc.1,
            acc.2 + (if (dict_lookup e.1 ocr).getD [] = [] then 1 else 0))
        else acc) acc).1 →
      e.2.fn_text = (dict_lookup e.1 ocr).getD [] ∧ e.2.page = p := by
  intro cfns
  induction cfns with
  | nil => intro ocr p acc hacc e he; exact hacc e he
  | cons c rest ih =>
    intro ocr p acc hacc e he
    rw [List.foldl_cons] at he
    by_cases hc : c.2.page == p
    · rw [if_pos hc] at he
      refine ih ocr p _ ?_ e he
      intro e2 he2
      simp only at he2
      rcases mem_dict_insert he2 with heq | hmem
      · rw [heq]
        exact ⟨rfl, rfl⟩
      · exact hacc e2 hmem
    · rw [if_neg hc] at he
      exact ih ocr p acc hacc e he

/-- Claim C9 (amended): the document-wide extraction map retains the text
from the LAST block in document order (last-write-wins); the classification
branch reads every substitution text from that map; the fallback branch
instead substitutes each page's own extracted block text. -/
theorem c9_amended :
    (∀ (n : Int) (blocks : List PageBlock),
      dict_lookup n (collect_ocr_texts blocks) = (block_texts n blocks).getLast?) ∧
    (∀ (cfns : List (Int × FnData)) (ocr : List (Int × List Char)) (p : Int)
        (e : Int × PageFn), e ∈ (page_fns_classification cfns ocr p).1 →
      e.2.fn_text = (dict_lookup e.1 ocr).getD [] ∧ e.2.page = p) ∧
    (∀ (p : Int) (lines : List (List Char)) (e : Int × PageFn),
      e ∈ page_fns_fallback p lines →
      dict_lookup e.1 (extract_ocr_footnotes lines) = some e.2.fn_text ∧
        e.2.page = p) := by
  refine ⟨fun n blocks => collect_ocr_texts_lookup n blocks, ?_, ?_⟩
  · intro cfns ocr p e he
    exact page_fns_classification_mem cfns ocr p ([], 0) (by simp) e he
  · intro p lines e he
    rw [page_fns_fallback] at he
    rcases List.mem_map.mp he with ⟨e2, he2, heq⟩
    rw [← heq]
    exact ⟨lookup_of_mem_nodup (extract_ocr_footnotes_keys_nodup lines)
      (by cases e2; exact he2), rfl⟩

def c9_demo_blocks : List PageBlock :=
  [{ page_number := 1, start_delim := [],
     lines := ["$ ^{5} $ AAA".toList], end_delim := [] },
   { page_number := 2, start_delim := [],
     lines := ["$ ^{5} $ BBB".toList], end_delim := [] }]

theorem c9_amended_witness :
    dict_lookup 5 (collect_ocr_texts c9_demo_blocks) =
      (block_texts 5 c9_demo_blocks).getLast? :=
  c9_amended.1 5 c9_demo_blocks

/-! ## Claim C10: the classification inventory -/

/-- The inventory entries successively stored for number `n`, in page order
then per-page footnote-list order (entries with non-positive numbers
contribute nothing). -/
def inventory_records (n : Int) (pages : List ClassPage) : List FnData :=
  pages.flatMap (fun p => p.footnotes.filterMap (fun fn =>
    if fn.fn_number > 0 then
      (if fn.fn_number = n then
        some { page := p.page_number, merge_status := fn.merge_status,
               merge_location := fn.merge_location, llm_text := fn.fn_text,
               original_page := none }
      else none)
    else none))

/-- Claim C10: the inventory built by `_extract_fn_inventory` maps each
footnote number to at most one record (keys are distinct), drops entries
with non-positive numbers, and keeps the LAST record listed for a number
(later pages silently overwrite earlier ones). -/
theorem extract_fn_inventory_spec (pages : List ClassPage) :
    (((extract_fn_inventory pages).map Prod.fst).Nodup) ∧
    (∀ e ∈ extract_fn_inventory pages, (e : Int × FnData).1 > 0) ∧
    (∀ n, dict_lookup n (extract_fn_inventory pages) =
      (inventory_records n pages).getLast?) := by
  refine ⟨?_, ?_, ?_⟩
  · rw [extract_fn_inventory]
    suffices h : ∀ (ps : List ClassPage) (d0 : List (Int × FnData)),
        (d0.map Prod.fst).Nodup →
        ((ps.foldl (fun footnotes page =>
          page.footnotes.foldl (fun footnotes fn =>
            if fn.fn_number > 0 then
              dict_insert fn.fn_number
                { page := page.page_number, merge_status := fn.merge_status,
                  merge_location := fn.merge_location, llm_text := fn.fn_text,
                  original_page := none } footnotes
            else footnotes) footnotes) d0).map Prod.fst).Nodup from
      h pages [] (by simp)
    intro ps
    induction ps with
    | nil => intro d0 h; exact h
    | cons p rest ih =>
      intro d0 h
      rw [List.foldl_cons]
      apply ih
      apply foldl_insert_keys_nodup _
        (fun fn => if fn.fn_number > 0 then
          some (fn.fn_number,
            ({ page := p.page_number, merge_status := fn.merge_status,
               merge_location := fn.merge_location, llm_text := fn.fn_text,
               original_page := none } : FnData))
        else none)
        (by
          intro d x
          by_cases hx : x.fn_number > 0 <;> simp [hx])
        p.footnotes d0 h
  · rw [extract_fn_inventory]
    suffices h : ∀ (ps : List ClassPage) (d0 : List (Int × FnData)),
        (∀ e ∈ d0, (e : Int × FnData).1 > 0) →
        ∀ e ∈ ps.foldl (fun footnotes page =>
          page.footnotes.foldl (fun footnotes fn =>
            if fn.fn_number > 0 then
              dict_insert fn.fn_number
                { page := page.page_number, merge_status := fn.merge_status,
                  merge_location := fn.merge_location, llm_text := fn.fn_text,
                  original_page := none } footnotes
            else footnotes) footnotes) d0, (e : Int × FnData).1 > 0 from
      h pages [] (by simp)
    intro ps
    induction ps with
    | nil => intro d0 h; exact h
    | cons p rest ih =>
      intro d0 h
      rw [List.foldl_cons]
      apply ih
      apply foldl_insert_mem_prop _
        (fun fn => if fn.fn_number > 0 then
          some (fn.fn_number,
            ({ page := p.page_number, merge_status := fn.merge_status,
               merge_location := fn.merge_location, llm_text := fn.fn_text,
               original_page := none } : FnData))
        else none)
        (by
          intro d x
          by_cases hx : x.fn_number > 0 <;> simp [hx])
        (fun e => e.1 > 0)
        (by
          intro x e hx
          simp only [] at hx
          split at hx
          · rename_i hpos
            cases hx
            exact hpos
          · cases hx)
        p.footnotes d0 h
  · intro n
    rw [extract_fn_inventory]
    suffices h : ∀ (ps : List ClassPage) (d0 : List (Int × FnData)),
        dict_lookup n (ps.foldl (fun footnotes page =>
          page.footnotes.foldl (fun footnotes fn =>
            if fn.fn_number > 0 then
              dict_insert fn.fn_number
                { page := page.page_number, merge_status := fn.merge_status,
                  merge_location := fn.merge_location, llm_text := fn.fn_text,
                  original_page := none } footnotes
            else footnotes) footnotes) d0) =
          match (inventory_records n ps).getLast? with
          | some v => some v
          | none => dict_lookup n d0 by
      rw [h pages []]
      cases (inventory_records n pages).getLast? with
      | none => rfl
      | some v => rfl
    intro ps
    induction ps with
    | nil => intro d0; rfl
    | cons p rest ih =>
      intro d0
      rw [List.foldl_cons, ih]
      have hpage := lookup_foldl_insert
        (fun (footnotes : List (Int × FnData)) (fn : ClassFn) =>
          if fn.fn_number > 0 then
            dict_insert fn.fn_number
              { page := p.page_number, merge_status := fn.merge_status,
                merge_location := fn.merge_location, llm_text := fn.fn_text,
                original_page := none } footnotes
          else footnotes)
        (fun fn => if fn.fn_number > 0 then
          some (fn.fn_number,
            ({ page := p.page_number, merge_status := fn.merge_status,
               merge_location := fn.merge_location, llm_text := fn.fn_text,
               original_page := none } : FnData))
        else none)
        (by
          intro d x
          by_cases hx : x.fn_number > 0 <;> simp [hx])
        n p.footnotes d0
      rw [List.filterMap_filterMap] at hpage
      have hcomp : p.footnotes.filterMap (fun fn =>
          ((if fn.fn_number > 0 then
            some (fn.fn_number,
              ({ page := p.page_number, merge_status := fn.merge_status,
                 merge_location := fn.merge_location, llm_text := fn.fn_text,
                 original_page := none } : FnData))
          else none)).bind (fun e => if e.1 = n then some e.2 else none)) =
          p.footnotes.filterMap (fun fn =>
            if fn.fn_number > 0 then
              (if fn.fn_number = n then
                some ({ page := p.page_number, merge_status := fn.merge_status,
                        merge_location := fn.merge_location, llm_text := fn.fn_text,
                        original_page := none } : FnData)
              else none)
            else none) := by
        apply List.filterMap_congr
        intro fn _
        by_cases hpos : fn.fn_number > 0
        · by_cases hn : fn.fn_number = n
          · subst hn
            simp [hpos]
          · simp [hpos, hn]
        · simp [hpos]
      rw [hcomp] at hpage
      rw [hpage]
      have hsplit : inventory_records n (p :: rest) =
          p.footnotes.filterMap (fun fn =>
            if fn.fn_number > 0 then
              (if fn.fn_number = n then
                some ({ page := p.page_number, merge_status := fn.merge_status,
                        merge_location := fn.merge_location, llm_text := fn.fn_text,
                        original_page := none } : FnData)
              else none)
            else none) ++ inventory_records n rest := by
        rw [inventory_records, List.flatMap_cons]
        rfl
      rw [hsplit, List.getLast?_append]
      cases hrest : (inventory_records n rest).getLast? with
      | some v => rfl
      | none =>
        simp only [Option.or]
        cases hline : (p.footnotes.filterMap (fun fn =>
            if fn.fn_number > 0 then
              (if fn.fn_number = n then
                some ({ page := p.page_number, merge_status := fn.merge_status,
                        merge_location := fn.merge_location, llm_text := fn.fn_text,
                        original_page := none } : FnData)
              else none)
            else none)).getLast? with
        | none => rfl
        | some v => rfl

def c10_demo_pages : List ClassPage :=
  [{ page_number := 1, footnotes :=
      [{ fn_number := 3, merge_status := "merged".toList,
         merge_location := [], fn_text := "first".toList },
       { fn_number := 0, merge_status := [], merge_location := [],
         fn_text := "dropped".toList }] },
   { page_number := 2, footnotes :=
      [{ fn_number := 3, merge_status := "partial".toList,
         merge_location := [], fn_text := "second".toList }] }]

theorem extract_fn_inventory_witness :
    dict_lookup 3 (extract_fn_inventory c10_demo_pages) =
      (inventory_records 3 c10_demo_pages).getLast? :=
  (extract_fn_inventory_spec c10_demo_pages).2.2 3

/-! ## Claim C4: `generate_footnote_index` (13_text_classifier.py 1414-1475)

The CSV write (file output) is omitted; `FnIssue` models the three
formatted warning strings with their interpolated data. -/

structure FnIndexRecord where
  fn_number : Int
  page : Int
  merge_status : List Char
  fn_text : List Char
deriving DecidableEq

/-- Lines 1421-1430: flatten all footnotes of all pages. -/
def collect_all_footnotes (pages : List ClassPage) : List FnIndexRecord :=
  pages.flatMap (fun p => p.footnotes.map (fun fn =>
    { fn_number := fn.fn_number, page := p.page_number,
      merge_status := fn.merge_status, fn_text := fn.fn_text }))

/-- Stable insertion for `list.sort(key=lambda x: x["fn_number"])`:
an element is placed after all existing elements with key `≤` its own. -/
def insert_rec (r : FnIndexRecord) : List FnIndexRecord → List FnIndexRecord
  | [] => [r]
  | x :: xs => if x.fn_number ≤ r.fn_number then x :: insert_rec r xs
               else r :: x :: xs

def sort_footnotes (l : List FnIndexRecord) : List FnIndexRecord :=
  l.foldl (fun acc r => insert_rec r acc) []

inductive FnIssue where
  | missing (m : Int) (beforeFn : Int) (page : Int)
  | out_of_order (num : Int) (page : Int) (expected : Int)
  | duplicate (num : Int) (page : Int)
deriving DecidableEq

/-- Python `range(a, b)` over integers. -/
def int_range (a b : Int) : List Int :=
  (List.range (b - a).toNat).map (fun (k : Nat) => a + (k : Int))

/-- Loop body of lines 1454-1470. -/
def validate_step (st : List FnIssue × List Int × Int) (fn : FnIndexRecord) :
    List FnIssue × List Int × Int :=
  let num := fn.fn_number
  let issues1 :=
    if num ≠ st.2.2 then
      (if num > st.2.2 then
        st.1 ++ (int_range st.2.2 num).map (fun m => FnIssue.missing m num fn.page)
      else st.1 ++ [FnIssue.out_of_order num fn.page st.2.2])
    else st.1
  let issues2 :=
    if st.2.1.contains num then issues1 ++ [FnIssue.duplicate num fn.page]
    else issues1
  (issues2, set_add num st.2.1, num + 1)

def generate_footnote_index (pages : List ClassPage) : List FnIssue :=
  let all_footnotes := collect_all_footnotes pages
  if all_footnotes.isEmpty then []
  else ((sort_footnotes all_footnotes).foldl validate_step ([], [], 1)).1

def is_dup_for (m : Int) : FnIssue → Bool
  | FnIssue.duplicate num _ => num == m
  | _ => false

def missing_num : FnIssue → Option Int
  | FnIssue.missing m _ _ => some m
  | _ => none

def c4_dup_fn : ClassFn :=
  { fn_number := 7, merge_status := "merged".toList, merge_location := [],
    fn_text := [] }

def c4_dup_pages : List ClassPage :=
  [{ page_number := 1, footnotes := [c4_dup_fn, c4_dup_fn, c4_dup_fn] }]

/-- Claim C4 is false on the code: three records all claiming footnote 7
produce TWO duplicate diagnostics (one per record beyond the first), not
exactly one for the repeated number. -/
theorem c4_counterexample :
    (generate_footnote_index c4_dup_pages).countP (is_dup_for 7) = 2 := by
  decide

theorem mem_set_add (n x : Int) (s : List Int) :
    x ∈ set_add n s ↔ x ∈ s ∨ x = n := by
  unfold set_add
  by_cases h : s.contains n
  · rw [if_pos h]
    constructor
    · exact Or.inl
    · rintro (hx | rfl)
      · exact hx
      · exact (contains_true_iff _ _).mp h
  · rw [if_neg h]
    simp

theorem contains_set_add (n m : Int) (s : List Int) :
    ((set_add n s).contains m) = (s.contains m || m == n) := by
  by_cases h : m ∈ s ∨ m = n
  · rw [(contains_true_iff _ _).mpr ((mem_set_add n m s).mpr h)]
    rcases h with h | rfl
    · rw [(contains_true_iff _ _).mpr h]; rfl
    · simp
  · push_neg at h
    have h1 : (set_add n s).contains m = false := by
      cases hc : (set_add n s).contains m
      · rfl
      · exact absurd (((mem_set_add n m s).mp ((contains_true_iff _ _).mp hc))) (by tauto)
    have h2 : s.contains m = false := by
      cases hc : s.contains m
      · rfl
      · exact absurd ((contains_true_iff _ _).mp hc) h.1
    rw [h1, h2]
    simp [h.2]

theorem countP_missing_map (m b p : Int) (l : List Int) :
    ((l.map (fun x => FnIssue.missing x b p)).countP (is_dup_for m)) = 0 := by
  rw [List.countP_eq_zero]
  intro a ha
  obtain ⟨x, _, rfl⟩ := List.mem_map.mp ha
  simp [is_dup_for]

theorem validate_step_dup_count (m : Int) (st : List FnIssue × List Int × Int)
    (r : FnIndexRecord) :
    ((validate_step st r).1).countP (is_dup_for m) =
      st.1.countP (is_dup_for m) +
        (if st.2.1.contains r.fn_number && r.fn_number == m then 1 else 0) := by
  unfold validate_step
  by_cases hm : r.fn_number = m
  · subst hm
    by_cases hc : r.fn_number ∈ st.2.1 <;> by_cases hne : r.fn_number ≠ st.2.2 <;>
      by_cases hgt : r.fn_number > st.2.2 <;>
        simp [hne, hgt, hc, List.countP_append, countP_missing_map, is_dup_for,
          List.countP_cons]
  · by_cases hc : r.fn_number ∈ st.2.1 <;> by_cases hne : r.fn_number ≠ st.2.2 <;>
      by_cases hgt : r.fn_number > st.2.2 <;>
        simp [hne, hgt, hc, hm, List.countP_append, countP_missing_map, is_dup_for,
          List.countP_cons]

theorem validate_fold_dup_count (m : Int) :
    ∀ (recs : List FnIndexRecord) (st : List FnIssue × List Int × Int),
      ((recs.foldl validate_step st).1).countP (is_dup_for m) =
        st.1.countP (is_dup_for m) +
          (if st.2.1.contains m then recs.countP (fun r => r.fn_number == m)
           else recs.countP (fun r => r.fn_number == m) - 1) := by
  intro recs
  induction recs with
  | nil => intro st; simp
  | cons r rest ih =>
    intro st
    rw [List.foldl_cons, ih (validate_step st r), validate_step_dup_count m st r]
    have hset : (validate_step st r).2.1 = set_add r.fn_number st.2.1 := rfl
    rw [hset, contains_set_add, List.countP_cons]
    by_cases hm : r.fn_number = m
    · subst hm
      simp only [beq_self_eq_true, Bool.and_true, Bool.or_true, if_true]
      by_cases hc : st.2.1.contains r.fn_number
      · rw [if_pos hc, if_pos hc]
        omega
      · rw [if_neg hc, if_neg hc]
        omega
    · have hbeq : (r.fn_number == m) = false := by simp [hm]
      have hbeq2 : (m == r.fn_number) = false := by simp [Ne.symm hm]
      rw [hbeq, hbeq2]
      simp only [Bool.and_false, Bool.or_false, if_false]
      by_cases hc : st.2.1.contains m <;> simp [hc]

theorem insert_rec_perm (r : FnIndexRecord) :
    ∀ l : List FnIndexRecord, (insert_rec r l).Perm (r :: l) := by
  intro l
  induction l with
  | nil => exact List.Perm.refl _
  | cons x xs ih =>
    unfold insert_rec
    by_cases h : x.fn_number ≤ r.fn_number
    · rw [if_pos h]
      exact (ih.cons x).trans (List.Perm.swap r x xs)
    · rw [if_neg h]

theorem sort_foldl_perm :
    ∀ (l acc : List FnIndexRecord),
      (l.foldl (fun a r => insert_rec r a) acc).Perm (acc ++ l) := by
  intro l
  induction l with
  | nil => intro acc; simp
  | cons r rest ih =>
    intro acc
    rw [List.foldl_cons]
    refine (ih (insert_rec r acc)).trans ?_
    refine (((insert_rec_perm r acc).append_right rest).trans ?_)
    exact (List.perm_middle).symm

theorem sort_footnotes_perm (l : List FnIndexRecord) :
    (sort_footnotes l).Perm l := by
  have := sort_foldl_perm l []
  simpa [sort_footnotes] using this

theorem insert_rec_sorted (r : FnIndexRecord) :
    ∀ l : List FnIndexRecord,
      l.Sorted (fun a b => a.fn_number ≤ b.fn_number) →
      (insert_rec r l).Sorted (fun a b => a.fn_number ≤ b.fn_number) := by
  intro l
  induction l with
  | nil => intro _; simp [insert_rec]
  | cons x xs ih =>
    intro h
    rw [List.sorted_cons] at h
    unfold insert_rec
    by_cases hle : x.fn_number ≤ r.fn_number
    · rw [if_pos hle, List.sorted_cons]
      refine ⟨?_, ih h.2⟩
      intro y hy
      rcases List.mem_cons.mp ((insert_rec_perm r xs).mem_iff.mp hy) with rfl | hy2
      · exact hle
      · exact h.1 y hy2
    · rw [if_neg hle, List.sorted_cons]
      refine ⟨?_, List.sorted_cons.mpr h⟩
      intro y hy
      rcases List.mem_cons.mp hy with rfl | hy2
      · omega
      · have := h.1 y hy2
        omega

theorem sort_footnotes_sorted (l : List FnIndexRecord) :
    (sort_footnotes l).Sorted (fun a b => a.fn_number ≤ b.fn_number) := by
  unfold sort_footnotes
  suffices h : ∀ (l acc : List FnIndexRecord),
      acc.Sorted (fun a b => a.fn_number ≤ b.fn_number) →
      (l.foldl (fun a r => insert_rec r a) acc).Sorted
        (fun a b => a.fn_number ≤ b.fn_number) by
    exact h l [] (by simp)
  intro l
  induction l with
  | nil => intro acc h; simpa using h
  | cons r rest ih =>
    intro acc h
    rw [List.foldl_cons]
    exact ih _ (insert_rec_sorted r acc h)

theorem mem_int_range (a b k : Int) : k ∈ int_range a b ↔ a ≤ k ∧ k < b := by
  unfold int_range
  simp only [List.mem_map, List.mem_range]
  constructor
  · rintro ⟨j, hj, rfl⟩
    omega
  · intro h
    exact ⟨(k - a).toNat, by omega, by omega⟩

theorem int_range_empty (a b : Int) (h : b ≤ a) : int_range a b = [] := by
  unfold int_range
  have h2 : (b - a).toNat = 0 := by omega
  rw [h2]
  rfl

theorem int_range_append (a b c : Int) (h1 : a ≤ b) (h2 : b ≤ c) :
    int_range a c = int_range a b ++ int_range b c := by
  unfold int_range
  have h3 : (c - a).toNat = (b - a).toNat + (c - b).toNat := by omega
  rw [h3, List.range_add, List.map_append, List.map_map]
  congr 1
  apply List.map_congr_left
  intro j hj
  simp only [Function.comp_apply]
  omega

theorem int_range_singleton (n : Int) : int_range n (n + 1) = [n] := by
  unfold int_range
  have h : (n + 1 - n).toNat = 1 := by omega
  rw [h]
  simp [List.range_succ]

theorem pairwise_int_range (a b : Int) : (int_range a b).Pairwise (· < ·) := by
  unfold int_range
  rw [List.pairwise_map]
  have h := List.pairwise_lt_range ((b - a).toNat)
  refine h.imp ?_
  intro i j hij
  omega

def gap_list (e : Int) : List Int → List Int
  | [] => []
  | n :: rest => int_range e n ++ gap_list (n + 1) rest

theorem filterMap_missing_map (b p : Int) (l : List Int) :
    (l.map (fun x => FnIssue.missing x b p)).filterMap missing_num = l := by
  induction l with
  | nil => rfl
  | cons x xs ih => simp [missing_num, ih]

theorem getLastD_mem_or (l : List Int) (d : Int) :
    l.getLastD d ∈ l ∨ l.getLastD d = d := by
  induction l generalizing d with
  | nil => right; rfl
  | cons x xs ih =>
    rw [List.getLastD_cons]
    rcases ih x with h | h
    · left; exact List.mem_cons_of_mem _ h
    · left; rw [h]; exact List.mem_cons_self _ _

theorem validate_fold_missing :
    ∀ (recs : List FnIndexRecord) (issues0 : List FnIssue) (seen0 : List Int)
      (e : Int),
      (recs.map (fun r => r.fn_number)).Chain' (· < ·) →
      (∀ r ∈ recs, e ≤ r.fn_number) →
      (∀ x ∈ seen0, x < e) →
      ((recs.foldl validate_step (issues0, seen0, e)).1).filterMap missing_num =
        issues0.filterMap missing_num ++
          gap_list e (recs.map (fun r => r.fn_number)) := by
  intro recs
  induction recs with
  | nil => intro issues0 seen0 e _ _ _; simp [gap_list]
  | cons r rest ih =>
    intro issues0 seen0 e hchain hge hseen
    have hnum : e ≤ r.fn_number := hge r (List.mem_cons_self r rest)
    have hcont : r.fn_number ∉ seen0 := by
      intro hm
      have := hseen _ hm
      omega
    have hpw := List.chain'_iff_pairwise.mp hchain
    rw [List.map_cons, List.pairwise_cons] at hpw
    have hstep : validate_step (issues0, seen0, e) r =
        ((if r.fn_number ≠ e then
            (if r.fn_number > e then
              issues0 ++ (int_range e r.fn_number).map
                (fun x => FnIssue.missing x r.fn_number r.page)
            else issues0 ++ [FnIssue.out_of_order r.fn_number r.page e])
          else issues0),
         set_add r.fn_number seen0, r.fn_number + 1) := by
      simp [validate_step, hcont]
    rw [List.foldl_cons, hstep, ih]
    · rw [List.map_cons]
      show _ = issues0.filterMap missing_num ++
        (int_range e r.fn_number ++ gap_list (r.fn_number + 1)
          (rest.map (fun r2 => r2.fn_number)))
      by_cases hne : r.fn_number ≠ e
      · rw [if_pos hne]
        have hgt : r.fn_number > e := by omega
        rw [if_pos hgt, List.filterMap_append, filterMap_missing_map,
          List.append_assoc]
      · rw [if_neg hne]
        push_neg at hne
        rw [hne, int_range_empty e e le_rfl]
        simp
    · exact (List.chain'_cons'.mp (List.map_cons _ r rest ▸ hchain)).2
    · intro r2 h2
      have := hpw.1 _ (List.mem_map_of_mem _ h2)
      omega
    · intro x hx
      rcases (mem_set_add _ _ _).mp hx with h | rfl
      · have := hseen x h
        omega
      · omega

theorem le_getLastD_of_chain (n : Int) (rest : List Int)
    (h : (n :: rest).Chain' (· < ·)) : n ≤ rest.getLastD n := by
  have hpw := List.chain'_iff_pairwise.mp h
  rw [List.pairwise_cons] at hpw
  rcases getLastD_mem_or rest n with hm | hm
  · have := hpw.1 _ hm
    omega
  · omega

theorem gap_list_eq_filter :
    ∀ (nums : List Int) (e : Int), nums.Chain' (· < ·) → (∀ x ∈ nums, e ≤ x) →
      gap_list e nums =
        (int_range e (nums.getLastD (e - 1) + 1)).filter
          (fun k => !(nums.contains k)) := by
  intro nums
  induction nums with
  | nil =>
    intro e _ _
    show ([] : List Int) = (int_range e (e - 1 + 1)).filter _
    rw [show e - 1 + 1 = e by omega, int_range_empty e e le_rfl]
    rfl
  | cons n rest ih =>
    intro e hchain hall
    have hen : e ≤ n := hall n (List.mem_cons_self n rest)
    have hpw := List.chain'_iff_pairwise.mp hchain
    rw [List.pairwise_cons] at hpw
    have hlast : n ≤ rest.getLastD n := le_getLastD_of_chain n rest hchain
    have hchain2 : rest.Chain' (· < ·) := (List.chain'_cons'.mp hchain).2
    have hall2 : ∀ x ∈ rest, n + 1 ≤ x := by
      intro x hx
      have := hpw.1 x hx
      omega
    have hLD : (n :: rest).getLastD (e - 1) = rest.getLastD n :=
      List.getLastD_cons _ _ _
    rw [hLD]
    show int_range e n ++ gap_list (n + 1) rest = _
    rw [ih (n + 1) hchain2 hall2]
    have hsplit : int_range e (rest.getLastD n + 1) =
        int_range e n ++ (int_range n (n + 1) ++
          int_range (n + 1) (rest.getLastD n + 1)) := by
      rw [← int_range_append n (n + 1) (rest.getLastD n + 1) (by omega) (by omega),
        ← int_range_append e n (rest.getLastD n + 1) hen (by omega)]
    rw [hsplit, int_range_singleton, List.filter_append, List.filter_append]
    have hf1 : (int_range e n).filter (fun k => !((n :: rest).contains k)) =
        int_range e n := by
      rw [List.filter_eq_self]
      intro k hk
      have hk2 := (mem_int_range e n k).mp hk
      have : k ∉ n :: rest := by
        intro hm
        rcases List.mem_cons.mp hm with rfl | hm2
        · omega
        · have := hall2 k hm2
          omega
      simp [this]
    have hf2 : ([n] : List Int).filter (fun k => !((n :: rest).contains k)) = [] := by
      have : n ∈ n :: rest := List.mem_cons_self n rest
      simp [this]
    have hf3 : (int_range (n + 1) (rest.getLastD n + 1)).filter
          (fun k => !((n :: rest).contains k)) =
        (int_range (n + 1) (rest.getLastD n + 1)).filter
          (fun k => !(rest.contains k)) := by
      apply List.filter_congr
      intro k hk
      have hk2 := (mem_int_range _ _ k).mp hk
      have hne : ¬ (k = n) := by omega
      simp [List.contains_cons, hne]
    rw [hf1, hf2, hf3]
    simp

theorem perm_contains_eq {l l2 : List Int} (h : l.Perm l2) (a : Int) :
    l.contains a = l2.contains a := by
  by_cases hm : a ∈ l
  · rw [(contains_true_iff _ _).mpr hm, (contains_true_iff _ _).mpr (h.mem_iff.mp hm)]
  · have hm2 : a ∉ l2 := fun h2 => hm (h.mem_iff.mpr h2)
    cases hc : l.contains a
    · cases hc2 : l2.contains a
      · rfl
      · exact absurd ((contains_true_iff _ _).mp hc2) hm2
    · exact absurd ((contains_true_iff _ _).mp hc) hm

/-- Claim C4 (amended): `generate_footnote_index` sorts the collected
records by footnote number and walks them expecting 1, 2, 3, …  For every
number m it emits (count of records with number m) − 1 duplicate
diagnostics, i.e. one per record beyond the first — not exactly one per
repeated number.  When the resolved numbers are distinct and positive, the
gap report lists, in ascending order, exactly the integers of [1, max]
absent from the resolved numbers (numbers below the smallest resolved one
included, since the walk starts expecting 1). -/
theorem c4_amended :
    (∀ (pages : List ClassPage) (m : Int),
      (generate_footnote_index pages).countP (is_dup_for m) =
        (collect_all_footnotes pages).countP (fun r => r.fn_number == m) - 1) ∧
    (∀ pages : List ClassPage,
      ((collect_all_footnotes pages).map (fun r => r.fn_number)).Nodup →
      (∀ r ∈ collect_all_footnotes pages, 1 ≤ r.fn_number) →
      (generate_footnote_index pages).filterMap missing_num =
        (int_range 1 (((sort_footnotes (collect_all_footnotes pages)).map
            (fun r => r.fn_number)).getLastD 0 + 1)).filter
          (fun k => !(((collect_all_footnotes pages).map
            (fun r => r.fn_number)).contains k)) ∧
      ((generate_footnote_index pages).filterMap missing_num).Chain' (· < ·)) := by
  constructor
  · intro pages m
    unfold generate_footnote_index
    by_cases hemp : (collect_all_footnotes pages).isEmpty
    · rw [if_pos hemp, List.isEmpty_iff.mp hemp]
      simp
    · rw [if_neg hemp,
        validate_fold_dup_count m (sort_footnotes (collect_all_footnotes pages))
          ([], [], 1)]
      simp only [List.countP_nil, Nat.zero_add]
      rw [show (([] : List Int).contains m) = false from rfl]
      simp only [Bool.false_eq_true, if_false]
      rw [(sort_footnotes_perm (collect_all_footnotes pages)).countP_eq]
  · intro pages hnodup hpos
    by_cases hemp : (collect_all_footnotes pages).isEmpty
    · have hAe : collect_all_footnotes pages = [] := List.isEmpty_iff.mp hemp
      have hgen : generate_footnote_index pages = [] := by
        unfold generate_footnote_index
        rw [if_pos hemp]
      rw [hgen, hAe]
      have hsort : sort_footnotes ([] : List FnIndexRecord) = [] := rfl
      rw [hsort]
      constructor
      · rw [show (((([] : List FnIndexRecord).map
            (fun r => r.fn_number)).getLastD 0) + 1) = 1 from rfl,
          int_range_empty 1 1 le_rfl]
        rfl
      · simp
    · have hgen : generate_footnote_index pages =
          (((sort_footnotes (collect_all_footnotes pages)).foldl
            validate_step ([], [], 1)).1) := by
        unfold generate_footnote_index
        rw [if_neg hemp]
      have hsorted := sort_footnotes_sorted (collect_all_footnotes pages)
      have hperm := sort_footnotes_perm (collect_all_footnotes pages)
      have hmapperm : ((sort_footnotes (collect_all_footnotes pages)).map
          (fun r => r.fn_number)).Perm
            ((collect_all_footnotes pages).map (fun r => r.fn_number)) :=
        hperm.map _
      have hnodup2 : ((sort_footnotes (collect_all_footnotes pages)).map
          (fun r => r.fn_number)).Nodup := hmapperm.nodup_iff.mpr hnodup
      have hpairle : ((sort_footnotes (collect_all_footnotes pages)).map
          (fun r => r.fn_number)).Pairwise (· ≤ ·) := by
        rw [List.pairwise_map]
        exact hsorted
      have hchain : ((sort_footnotes (collect_all_footnotes pages)).map
          (fun r => r.fn_number)).Chain' (· < ·) := by
        rw [List.chain'_iff_pairwise]
        refine (hpairle.and hnodup2).imp ?_
        intro a b hab
        exact lt_of_le_of_ne hab.1 hab.2
      have hge : ∀ r ∈ sort_footnotes (collect_all_footnotes pages),
          1 ≤ r.fn_number := fun r hr => hpos r (hperm.mem_iff.mp hr)
      have hmain := validate_fold_missing
        (sort_footnotes (collect_all_footnotes pages)) [] [] 1 hchain hge
        (by intro x hx; cases hx)
      have hmapge : ∀ x ∈ (sort_footnotes (collect_all_footnotes pages)).map
          (fun r => r.fn_number), 1 ≤ x := by
        intro x hx
        obtain ⟨r, hr, rfl⟩ := List.mem_map.mp hx
        exact hge r hr
      have hfilter := gap_list_eq_filter
        ((sort_footnotes (collect_all_footnotes pages)).map
          (fun r => r.fn_number)) 1 hchain hmapge
      rw [show (1 : Int) - 1 = 0 by norm_num] at hfilter
      have heq : (generate_footnote_index pages).filterMap missing_num =
          (int_range 1 (((sort_footnotes (collect_all_footnotes pages)).map
              (fun r => r.fn_number)).getLastD 0 + 1)).filter
            (fun k => !(((collect_all_footnotes pages).map
              (fun r => r.fn_number)).contains k)) := by
        rw [hgen, hmain]
        simp only [List.filterMap_nil, List.nil_append]
        rw [hfilter]
        apply List.filter_congr
        intro k _
        rw [perm_contains_eq hmapperm]
      refine ⟨heq, ?_⟩
      rw [heq, List.chain'_iff_pairwise]
      exact (pairwise_int_range _ _).sublist (List.filter_sublist _)

def c4_gap_pages : List ClassPage :=
  [{ page_number := 1,
     footnotes :=
       [{ fn_number := 2, merge_status := "merged".toList, merge_location := [],
          fn_text := [] },
        { fn_number := 4, merge_status := "merged".toList, merge_location := [],
          fn_text := [] }] }]

theorem c4_amended_witness :
    (((c4_gap_pages.flatMap (fun p => p.footnotes)).length = 2) ∧
      ((collect_all_footnotes c4_gap_pages).map (fun r => r.fn_number)).Nodup ∧
      (∀ r ∈ collect_all_footnotes c4_gap_pages, 1 ≤ r.fn_number)) ∧
    ((generate_footnote_index c4_gap_pages).filterMap missing_num =
        (int_range 1 (((sort_footnotes (collect_all_footnotes c4_gap_pages)).map
            (fun r => r.fn_number)).getLastD 0 + 1)).filter
          (fun k => !(((collect_all_footnotes c4_gap_pages).map
            (fun r => r.fn_number)).contains k)) ∧
      ((generate_footnote_index c4_gap_pages).filterMap missing_num).Chain'
        (· < ·)) ∧
    (generate_footnote_index c4_gap_pages).filterMap missing_num = [1, 3] :=
  ⟨⟨by decide, by decide, by decide⟩,
   c4_amended.2 c4_gap_pages (by decide) (by decide), by decide⟩

/-- Claim C1 is false as stated: " y" is a contiguous substring of the page
text "x y", yet the search returns "y" — the leading whitespace of S is
lost, because the normalized needle "y" is located at its first normalized
occurrence and mapped back without the stripped margin. -/
theorem c1_counterexample :
    (" y".toList <:+: "x y".toList) ∧
    search_source_text (" y".toList) 1 [⟨1, "x y".toList⟩] =
      some ("y".toList) ∧
    ("y".toList : List Char) ≠ " y".toList :=
  ⟨⟨"x".toList, [], by decide⟩, by decide, by decide⟩

theorem c1_witness :
    ∃ R, search_source_text ("hello\nworld".toList) 1
        [⟨1, "x hello\nworld y".toList⟩] = some R ∧
      R <:+: "x hello\nworld y".toList ∧
      normalize R = normalize ("hello\nworld".toList) :=
  search_substring_roundtrip ("hello\nworld".toList) 1
    [⟨1, "x hello\nworld y".toList⟩] ⟨1, "x hello\nworld y".toList⟩
    (by decide) (by decide) ⟨"x ".toList, " y".toList, by decide⟩ (by decide)

/-- Concrete exercise of the C8 characterization: a candidate present
verbatim on page 2 but searched against page 3 is "not found", and the
result is unchanged when page 2 is deleted from the store. -/
theorem c8_witness :
    search_source_text ("abc".toList) 3
        [⟨2, "x abc y".toList⟩, ⟨3, "zzz".toList⟩] = none ∧
    search_source_text ("abc".toList) 3
        [⟨2, "x abc y".toList⟩, ⟨3, "zzz".toList⟩] =
      search_source_text ("abc".toList) 3 [⟨3, "zzz".toList⟩] :=
  ⟨(search_source_text_none_iff ("abc".toList) 3
        [⟨2, "x abc y".toList⟩, ⟨3, "zzz".toList⟩]).1.mpr
      (Or.inr (Or.inr ⟨⟨3, "zzz".toList⟩, by decide, by decide⟩)),
   (search_source_text_none_iff ("abc".toList) 3
        [⟨2, "x abc y".toList⟩, ⟨3, "zzz".toList⟩]).2
     [⟨3, "zzz".toList⟩] (by decide)⟩

/-! ## Claim C6: `verify_causes_of_action` (13_text_classifier.py 1480-1521)

`PARAGRAPH_NUM_RE` (line 827) is the MULTILINE pattern
`^\s*(?:¶\s*)?(\d+)\.\s`.  Its alternatives never overlap (whitespace,
`¶` and digits are disjoint character classes), so the greedy scan below
is equivalent to the backtracking engine. -/

/-- One match attempt of `PARAGRAPH_NUM_RE` at a line start: returns the
captured number, whether the final consumed `\s` was a newline (the next
position's line-start status), and the remaining text. -/
def para_try (s : List Char) : Option (Int × Bool × List Char) :=
  let s1 := s.dropWhile re_ws
  let s2 := match s1 with
    | '¶' :: t => t.dropWhile re_ws
    | _ => s1
  let ds := s2.takeWhile is_digit
  if ds.isEmpty then none
  else
    match s2.drop ds.length with
    | '.' :: c :: rest =>
      if re_ws c then some (digits_to_int ds, c == '\n', rest) else none
    | _ => none

/-- `re.finditer` over the page text: matches start only at line starts
(`^` with MULTILINE); on failure the scan advances one character. -/
def para_scan : Nat → List Char → Bool → List Int
  | 0, _, _ => []
  | _ + 1, [], _ => []
  | fuel + 1, c :: rest, bol =>
    if bol then
      match para_try (c :: rest) with
      | some (n, nl, rest2) => n :: para_scan fuel rest2 nl
      | none => para_scan fuel rest (c == '\n')
    else para_scan fuel rest (c == '\n')

def page_paragraph_nums (text : List Char) : List Int :=
  para_scan (text.length + 1) text true

/-- Lines 1490-1496: `page_paragraphs` dict, skipping pages with no
matches; a repeated page number overwrites the earlier entry. -/
def page_paragraphs_of (pages : List SourcePage) : List (Int × List Int) :=
  pages.foldl (fun d pg =>
    if (page_paragraph_nums pg.text).isEmpty then d
    else dict_insert pg.number (page_paragraph_nums pg.text) d) []

/-- Lines 1498-1500: union of the dict values. -/
def all_paragraphs_of (pages : List SourcePage) : List Int :=
  (page_paragraphs_of pages).foldl
    (fun s e => e.2.foldl (fun s2 n => set_add n s2) s) []

/-- `paragraph_range` value; `stop` models the source key `end` (a Lean
keyword). -/
structure ParaRange where
  start : Int
  stop : Int
deriving DecidableEq

structure CoA where
  number : Int
  paragraph_range : Option ParaRange
deriving DecidableEq

structure CoARangeOut where
  coa : CoA
  paragraph_range_verified : Bool
  missing_paragraphs : List Int
deriving DecidableEq

/-- Lines 1480-1517.  `sorted(expected - all_paragraphs)` — the ascending
enumeration of the set difference — is the filter of the ascending
duplicate-free `range(start, end + 1)` by non-membership. -/
def verify_causes_of_action (coa_list : List CoA) (pages : List SourcePage) :
    List CoARangeOut :=
  if coa_list.isEmpty then []
  else
    coa_list.map (fun coa =>
      if (coa.paragraph_range.getD ⟨0, 0⟩).start > 0 ∧
          (coa.paragraph_range.getD ⟨0, 0⟩).stop > 0 then
        { coa := coa,
          paragraph_range_verified :=
            ((int_range (coa.paragraph_range.getD ⟨0, 0⟩).start
                ((coa.paragraph_range.getD ⟨0, 0⟩).stop + 1)).filter
              (fun k => !((all_paragraphs_of pages).contains k))).isEmpty,
          missing_paragraphs :=
            (int_range (coa.paragraph_range.getD ⟨0, 0⟩).start
                ((coa.paragraph_range.getD ⟨0, 0⟩).stop + 1)).filter
              (fun k => !((all_paragraphs_of pages).contains k)) }
      else
        { coa := coa, paragraph_range_verified := false,
          missing_paragraphs := [] })

theorem mem_foldl_set_add (n : Int) :
    ∀ (l s : List Int),
      n ∈ l.foldl (fun s2 x => set_add x s2) s ↔ n ∈ s ∨ n ∈ l := by
  intro l
  induction l with
  | nil => intro s; simp
  | cons x xs ih =>
    intro s
    rw [List.foldl_cons, ih, mem_set_add, List.mem_cons]
    tauto

theorem mem_union_fold (n : Int) :
    ∀ (d : List (Int × List Int)) (s : List Int),
      n ∈ d.foldl (fun s2 e => e.2.foldl (fun s3 x => set_add x s3) s2) s ↔
        n ∈ s ∨ ∃ e ∈ d, n ∈ e.2 := by
  intro d
  induction d with
  | nil => intro s; simp
  | cons e rest ih =>
    intro s
    rw [List.foldl_cons, ih, mem_foldl_set_add]
    constructor
    · rintro ((h | h) | ⟨e2, he2, hn⟩)
      · exact Or.inl h
      · exact Or.inr ⟨e, List.mem_cons_self e rest, h⟩
      · exact Or.inr ⟨e2, List.mem_cons_of_mem e he2, hn⟩
    · rintro (h | ⟨e2, he2, hn⟩)
      · exact Or.inl (Or.inl h)
      · rcases List.mem_cons.mp he2 with rfl | h3
        · exact Or.inl (Or.inr hn)
        · exact Or.inr ⟨e2, h3, hn⟩

theorem dict_insert_fresh {α : Type} (k : Int) (v : α) :
    ∀ d : List (Int × α), (∀ e ∈ d, e.1 ≠ k) → dict_insert k v d = d ++ [(k, v)] := by
  intro d
  induction d with
  | nil => intro _; rfl
  | cons e rest ih =>
    intro h
    obtain ⟨k2, v2⟩ := e
    have hne : k2 ≠ k := h (k2, v2) (List.mem_cons_self _ _)
    show (if k2 = k then (k, v) :: rest else (k2, v2) :: dict_insert k v rest) = _
    rw [if_neg hne, ih (fun e2 he2 => h e2 (List.mem_cons_of_mem _ he2))]
    rfl

theorem mem_page_paragraphs_fold :
    ∀ (pages : List SourcePage) (d : List (Int × List Int)),
      (pages.map (fun pg => pg.number)).Nodup →
      (∀ pg ∈ pages, ∀ e ∈ d, e.1 ≠ pg.number) →
      ∀ e : Int × List Int,
        (e ∈ pages.foldl (fun d2 pg =>
            if (page_paragraph_nums pg.text).isEmpty then d2
            else dict_insert pg.number (page_paragraph_nums pg.text) d2) d ↔
          e ∈ d ∨ ∃ pg ∈ pages, ¬(page_paragraph_nums pg.text).isEmpty ∧
            e = (pg.number, page_paragraph_nums pg.text)) := by
  intro pages
  induction pages with
  | nil => intro d _ _ e; simp
  | cons pg rest ih =>
    intro d hnodup hfresh e
    rw [List.map_cons, List.nodup_cons] at hnodup
    rw [List.foldl_cons]
    by_cases hemp : (page_paragraph_nums pg.text).isEmpty
    · rw [if_pos hemp,
        ih d hnodup.2 (fun pg2 h2 => hfresh pg2 (List.mem_cons_of_mem _ h2)) e]
      constructor
      · rintro (h | ⟨pg2, h2, h3⟩)
        · exact Or.inl h
        · exact Or.inr ⟨pg2, List.mem_cons_of_mem _ h2, h3⟩
      · rintro (h | ⟨pg2, h2, h3⟩)
        · exact Or.inl h
        · rcases List.mem_cons.mp h2 with rfl | h4
          · exact absurd hemp h3.1
          · exact Or.inr ⟨pg2, h4, h3⟩
    · rw [if_neg hemp,
        dict_insert_fresh pg.number (page_paragraph_nums pg.text) d
          (fun e2 he2 => hfresh pg (List.mem_cons_self _ _) e2 he2)]
      have hfresh2 : ∀ pg2 ∈ rest,
          ∀ e2 ∈ d ++ [(pg.number, page_paragraph_nums pg.text)],
            e2.1 ≠ pg2.number := by
        intro pg2 h2 e2 he2
        rcases List.mem_append.mp he2 with h3 | h3
        · exact hfresh pg2 (List.mem_cons_of_mem _ h2) e2 h3
        · rw [List.mem_singleton.mp h3]
          show pg.number ≠ pg2.number
          intro hcon
          refine hnodup.1 ?_
          rw [hcon]
          exact List.mem_map_of_mem (fun p => p.number) h2
      rw [ih _ hnodup.2 hfresh2 e]
      rw [List.mem_append, List.mem_singleton]
      constructor
      · rintro ((h | h) | ⟨pg2, h2, h3⟩)
        · exact Or.inl h
        · exact Or.inr ⟨pg, List.mem_cons_self _ _, hemp, h⟩
        · exact Or.inr ⟨pg2, List.mem_cons_of_mem _ h2, h3⟩
      · rintro (h | ⟨pg2, h2, h3⟩)
        · exact Or.inl (Or.inl h)
        · rcases List.mem_cons.mp h2 with rfl | h4
          · exact Or.inl (Or.inr h3.2)
          · exact Or.inr ⟨pg2, h4, h3⟩

theorem mem_all_paragraphs (pages : List SourcePage)
    (hnodup : (pages.map (fun pg => pg.number)).Nodup) (n : Int) :
    n ∈ all_paragraphs_of pages ↔
      ∃ pg ∈ pages, n ∈ page_paragraph_nums pg.text := by
  unfold all_paragraphs_of page_paragraphs_of
  rw [mem_union_fold]
  simp only [List.not_mem_nil, false_or]
  constructor
  · rintro ⟨e, he, hn⟩
    rw [mem_page_paragraphs_fold pages [] hnodup (by intro _ _ e2 he2; cases he2) e]
      at he
    rcases he with h | ⟨pg, hpg, _, rfl⟩
    · cases h
    · exact ⟨pg, hpg, hn⟩
  · rintro ⟨pg, hpg, hn⟩
    refine ⟨(pg.number, page_paragraph_nums pg.text), ?_, hn⟩
    rw [mem_page_paragraphs_fold pages [] hnodup (by intro _ _ e2 he2; cases he2)]
    refine Or.inr ⟨pg, hpg, ?_, rfl⟩
    intro hcon
    rw [List.isEmpty_iff.mp hcon] at hn
    cases hn

/-- Claim C6: for every cause-of-action candidate, range verification with
start>0 and end>0 computes the inclusive range [start,end], subtracts the
paragraph numbers pooled from all pages (page numbers assumed distinct, as
produced by the page reader), sets verified true exactly when the remainder
is empty, and reports the remainder ascending as missing_paragraphs; any
non-positive bound yields verified=false with an empty missing list. -/
theorem verify_causes_of_action_spec (coa_list : List CoA)
    (pages : List SourcePage)
    (hnodup : (pages.map (fun pg => pg.number)).Nodup) :
    (verify_causes_of_action coa_list pages).length = coa_list.length ∧
    ∀ i (hi : i < coa_list.length),
      ∃ out : CoARangeOut,
        (verify_causes_of_action coa_list pages)[i]? = some out ∧
        out.coa = coa_list[i] ∧
        (((coa_list[i]).paragraph_range.getD ⟨0, 0⟩).start > 0 ∧
            ((coa_list[i]).paragraph_range.getD ⟨0, 0⟩).stop > 0 →
          (out.paragraph_range_verified = true ↔
            ∀ k, ((coa_list[i]).paragraph_range.getD ⟨0, 0⟩).start ≤ k →
              k ≤ ((coa_list[i]).paragraph_range.getD ⟨0, 0⟩).stop →
              ∃ pg ∈ pages, k ∈ page_paragraph_nums pg.text) ∧
          out.missing_paragraphs.Chain' (· < ·) ∧
          (∀ k, k ∈ out.missing_paragraphs ↔
            ((coa_list[i]).paragraph_range.getD ⟨0, 0⟩).start ≤ k ∧
            k ≤ ((coa_list[i]).paragraph_range.getD ⟨0, 0⟩).stop ∧
            ¬ ∃ pg ∈ pages, k ∈ page_paragraph_nums pg.text)) ∧
        (¬ (((coa_list[i]).paragraph_range.getD ⟨0, 0⟩).start > 0 ∧
            ((coa_list[i]).paragraph_range.getD ⟨0, 0⟩).stop > 0) →
          out.paragraph_range_verified = false ∧
            out.missing_paragraphs = []) := by
  constructor
  · by_cases hemp : coa_list.isEmpty
    · have h := List.isEmpty_iff.mp hemp
      subst h
      rfl
    · unfold verify_causes_of_action
      rw [if_neg hemp, List.length_map]
  · intro i hi
    have hemp : ¬ coa_list.isEmpty = true := by
      intro h
      rw [List.isEmpty_iff.mp h] at hi
      exact absurd hi (by simp)
    have hc : coa_list[i]? = some coa_list[i] := List.getElem?_eq_getElem hi
    by_cases hpr : ((coa_list[i]).paragraph_range.getD ⟨0, 0⟩).start > 0 ∧
        ((coa_list[i]).paragraph_range.getD ⟨0, 0⟩).stop > 0
    · refine ⟨{ coa := coa_list[i],
                paragraph_range_verified :=
                  ((int_range ((coa_list[i]).paragraph_range.getD ⟨0, 0⟩).start
                      (((coa_list[i]).paragraph_range.getD ⟨0, 0⟩).stop + 1)).filter
                    (fun k => !((all_paragraphs_of pages).contains k))).isEmpty,
                missing_paragraphs :=
                  (int_range ((coa_list[i]).paragraph_range.getD ⟨0, 0⟩).start
                      (((coa_list[i]).paragraph_range.getD ⟨0, 0⟩).stop + 1)).filter
                    (fun k => !((all_paragraphs_of pages).contains k)) },
        ?_, rfl, ?_, ?_⟩
      · unfold verify_causes_of_action
        rw [if_neg hemp, List.getElem?_map, hc, Option.map_some']
        congr 1
        rw [if_pos hpr]
      · intro _
        refine ⟨?_, ?_, ?_⟩
        · show (List.filter _ _).isEmpty = true ↔ _
          rw [List.isEmpty_iff, List.filter_eq_nil_iff]
          constructor
          · intro h k hk1 hk2
            have hk : k ∈ int_range
                ((coa_list[i]).paragraph_range.getD ⟨0, 0⟩).start
                (((coa_list[i]).paragraph_range.getD ⟨0, 0⟩).stop + 1) :=
              (mem_int_range _ _ k).mpr ⟨hk1, by omega⟩
            have h2 := h k hk
            have h3 : (all_paragraphs_of pages).contains k = true := by
              cases hb : (all_paragraphs_of pages).contains k
              · exact absurd (by rw [hb]; rfl) h2
              · rfl
            exact (mem_all_paragraphs pages hnodup k).mp
              ((contains_true_iff _ _).mp h3)
          · intro h k hk
            have hk2 := (mem_int_range _ _ k).mp hk
            have h4 := h k hk2.1 (by omega)
            have h5 : (all_paragraphs_of pages).contains k = true :=
              (contains_true_iff _ _).mpr
                ((mem_all_paragraphs pages hnodup k).mpr h4)
            rw [h5]
            simp
        · show (List.filter _ _).Chain' (· < ·)
          rw [List.chain'_iff_pairwise]
          exact (pairwise_int_range _ _).sublist (List.filter_sublist _)
        · intro k
          show k ∈ List.filter _ _ ↔ _
          rw [List.mem_filter, mem_int_range]
          constructor
          · rintro ⟨⟨h1, h2⟩, h3⟩
            refine ⟨h1, by omega, ?_⟩
            intro hcon
            have h4 := (contains_true_iff _ _).mpr
              ((mem_all_paragraphs pages hnodup k).mpr hcon)
            rw [h4] at h3
            cases h3
          · rintro ⟨h1, h2, h3⟩
            refine ⟨⟨h1, by omega⟩, ?_⟩
            cases hb : (all_paragraphs_of pages).contains k
            · rfl
            · exact absurd ((mem_all_paragraphs pages hnodup k).mp
                ((contains_true_iff _ _).mp hb)) h3
      · intro h
        exact absurd hpr h
    · refine ⟨{ coa := coa_list[i],
                paragraph_range_verified := false,
                missing_paragraphs := [] }, ?_, rfl, ?_, ?_⟩
      · unfold verify_causes_of_action
        rw [if_neg hemp, List.getElem?_map, hc, Option.map_some']
        congr 1
        rw [if_neg hpr]
      · intro h
        exact absurd h hpr
      · intro _
        exact ⟨rfl, rfl⟩

def c6_pages : List SourcePage :=
  [⟨1, ("1. a\n2. a\n3. a\n4. a\n5. a\n6. a\n7. a\n8. a\n9. a\n" ++
        "10. a\n12. a\n13. a\n").toList⟩]

def c6_coas : List CoA :=
  [{ number := 1, paragraph_range := some ⟨10, 13⟩ }]

theorem c6_witness :
    (∃ out : CoARangeOut,
      (verify_causes_of_action c6_coas c6_pages)[0]? = some out ∧
      out.coa = { number := 1, paragraph_range := some ⟨10, 13⟩ } ∧
      ((10 : Int) > 0 ∧ (13 : Int) > 0 →
        (out.paragraph_range_verified = true ↔
          ∀ k, (10 : Int) ≤ k → k ≤ 13 →
            ∃ pg ∈ c6_pages, k ∈ page_paragraph_nums pg.text) ∧
        out.missing_paragraphs.Chain' (· < ·) ∧
        (∀ k, k ∈ out.missing_paragraphs ↔
          (10 : Int) ≤ k ∧ k ≤ 13 ∧
            ¬ ∃ pg ∈ c6_pages, k ∈ page_paragraph_nums pg.text)) ∧
      (¬ ((10 : Int) > 0 ∧ (13 : Int) > 0) →
        out.paragraph_range_verified = false ∧
          out.missing_paragraphs = [])) ∧
    (verify_causes_of_action c6_coas c6_pages).map
        (fun o => (o.paragraph_range_verified, o.missing_paragraphs)) =
      [(false, [11])] :=
  ⟨(verify_causes_of_action_spec c6_coas c6_pages (by decide)).2 0 (by decide),
   by decide⟩

/-! ## Claim C7: `verify_search_fields` (13_text_classifier.py 1352-1400)

`caption_info.document_title` is either a search-constrained dict
`{search_text, page}` (page defaulting to 1 when absent) or an already
resolved string; each cause of action carries `search_text` (default "")
and `page` (default 0).  Log output is omitted. -/

inductive DocTitleField where
  | dict (search_text : List Char) (page : Option Int)
  | str (s : List Char)
deriving DecidableEq

structure CaptionOut where
  document_title : List Char
  document_title_verified : Option Bool
  document_title_proposed_value : Option (List Char)
deriving DecidableEq

structure CoAIn where
  number : Int
  search_text : List Char
  page : Int
deriving DecidableEq

structure CoATitleOut where
  number : Int
  page : Int
  title : List Char
  title_verified : Option Bool
  title_proposed_value : Option (List Char)
deriving DecidableEq

/-- Lines 1363-1375: the document-title branch.  `if verbatim:` is Python
truthiness, so a `None` and an empty verbatim string both take the failure
path; an absent or empty `search_text` skips the search entirely. -/
def verify_dt (dt : DocTitleField) (pages : List SourcePage) : CaptionOut :=
  match dt with
  | .str s =>
    { document_title := s, document_title_verified := none,
      document_title_proposed_value := none }
  | .dict st pg =>
    if st.isEmpty then
      { document_title := st, document_title_verified := none,
        document_title_proposed_value := none }
    else
      match search_source_text st (pg.getD 1) pages with
      | some v =>
        if v.isEmpty then
          { document_title := st, document_title_verified := some false,
            document_title_proposed_value := some st }
        else
          { document_title := v, document_title_verified := some true,
            document_title_proposed_value := none }
      | none =>
        { document_title := st, document_title_verified := some false,
          document_title_proposed_value := some st }

/-- Lines 1377-1396: one cause-of-action title; `search_text` is popped
from the output either way. -/
def verify_coa (pages : List SourcePage) (coa : CoAIn) : CoATitleOut :=
  if ¬coa.search_text.isEmpty ∧ coa.page > 0 then
    match search_source_text coa.search_text coa.page pages with
    | some v =>
      if v.isEmpty then
        { number := coa.number, page := coa.page, title := coa.search_text,
          title_verified := some false,
          title_proposed_value := some coa.search_text }
      else
        { number := coa.number, page := coa.page, title := v,
          title_verified := some true, title_proposed_value := none }
    | none =>
      { number := coa.number, page := coa.page, title := coa.search_text,
        title_verified := some false,
        title_proposed_value := some coa.search_text }
  else
    { number := coa.number, page := coa.page, title := coa.search_text,
      title_verified := none, title_proposed_value := none }

def verify_search_fields (dt : DocTitleField) (coas : List CoAIn)
    (pages : List SourcePage) : CaptionOut × List CoATitleOut :=
  (verify_dt dt pages, coas.map (verify_coa pages))

/-- Claim C7: search-constrained field verification replaces the value
with the verbatim source text and marks it verified on success; on failure
it keeps the proposed value unchanged (also recorded in the
`*_proposed_value` audit key) and marks the field unverified.  The title
output is `verify_dt dt pages` and cause i's output is
`verify_coa pages coas[i]`, so each field depends only on its own input
and the page store: one field's failure cannot affect another field. -/
theorem verify_search_fields_spec (dt : DocTitleField) (coas : List CoAIn)
    (pages : List SourcePage) :
    ((verify_search_fields dt coas pages).1 = verify_dt dt pages ∧
     (verify_search_fields dt coas pages).2.length = coas.length ∧
     ∀ i (hi : i < coas.length),
       (verify_search_fields dt coas pages).2[i]? =
         some (verify_coa pages coas[i])) ∧
    (∀ st pg v, ¬st.isEmpty →
      search_source_text st (pg.getD 1) pages = some v → ¬v.isEmpty →
      verify_dt (.dict st pg) pages = ⟨v, some true, none⟩) ∧
    (∀ st pg, ¬st.isEmpty →
      (search_source_text st (pg.getD 1) pages = none ∨
       search_source_text st (pg.getD 1) pages = some []) →
      verify_dt (.dict st pg) pages = ⟨st, some false, some st⟩) ∧
    (∀ coa v, ¬coa.search_text.isEmpty → coa.page > 0 →
      search_source_text coa.search_text coa.page pages = some v →
      ¬v.isEmpty →
      verify_coa pages coa = ⟨coa.number, coa.page, v, some true, none⟩) ∧
    (∀ coa, ¬coa.search_text.isEmpty → coa.page > 0 →
      (search_source_text coa.search_text coa.page pages = none ∨
       search_source_text coa.search_text coa.page pages = some []) →
      verify_coa pages coa =
        ⟨coa.number, coa.page, coa.search_text, some false,
          some coa.search_text⟩) ∧
    (∀ coa, ¬(¬coa.search_text.isEmpty ∧ coa.page > 0) →
      verify_coa pages coa =
        ⟨coa.number, coa.page, coa.search_text, none, none⟩) := by
  refine ⟨⟨rfl, List.length_map _ _, ?_⟩, ?_, ?_, ?_, ?_, ?_⟩
  · intro i hi
    show (coas.map (verify_coa pages))[i]? = _
    rw [List.getElem?_map, List.getElem?_eq_getElem hi, Option.map_some']
  · intro st pg v hst hsearch hv
    have hb : v.isEmpty = false := by
      cases hb2 : v.isEmpty
      · rfl
      · exact absurd hb2 hv
    simp [verify_dt, hst, hsearch, hb]
  · intro st pg hst hsearch
    rcases hsearch with h | h <;> simp [verify_dt, hst, h]
  · intro coa v hst hpg hsearch hv
    have hb : v.isEmpty = false := by
      cases hb2 : v.isEmpty
      · rfl
      · exact absurd hb2 hv
    simp [verify_coa, hst, hpg, hsearch, hb]
  · intro coa hst hpg hsearch
    rcases hsearch with h | h <;> simp [verify_coa, hst, hpg, h]
  · intro coa hcond
    simp only [verify_coa]
    rw [if_neg hcond]

def c7_pages : List SourcePage := [⟨1, "say hello world now".toList⟩]

def c7_dt : DocTitleField := .dict ("say  hello".toList) none

def c7_coa_ok : CoAIn := ⟨1, "hello  world".toList, 1⟩

def c7_coa_fail : CoAIn := ⟨2, "absent".toList, 1⟩

def c7_coas : List CoAIn := [c7_coa_ok, c7_coa_fail]

/-- Concrete exercise of C7: the title and the first cause verify (their
values replaced by the verbatim source spelling), the second cause fails
and keeps its proposed value; the failure leaves the other two outputs
untouched. -/
theorem c7_witness :
    ((verify_search_fields c7_dt c7_coas c7_pages).1 =
        verify_dt c7_dt c7_pages ∧
     (verify_search_fields c7_dt c7_coas c7_pages).2.length =
        c7_coas.length ∧
     ∀ i (hi : i < c7_coas.length),
       (verify_search_fields c7_dt c7_coas c7_pages).2[i]? =
         some (verify_coa c7_pages c7_coas[i])) ∧
    verify_dt c7_dt c7_pages = ⟨"say hello".toList, some true, none⟩ ∧
    verify_coa c7_pages c7_coa_ok =
      ⟨1, 1, "hello world".toList, some true, none⟩ ∧
    verify_coa c7_pages c7_coa_fail =
      ⟨2, 1, "absent".toList, some false, some ("absent".toList)⟩ :=
  ⟨(verify_search_fields_spec c7_dt c7_coas c7_pages).1,
   (verify_search_fields_spec c7_dt c7_coas c7_pages).2.1
     ("say  hello".toList) none ("say hello".toList)
     (by decide) (by decide) (by decide),
   (verify_search_fields_spec c7_dt c7_coas c7_pages).2.2.2.1
     c7_coa_ok ("hello world".toList) (by decide) (by decide) (by decide)
     (by decide),
   (verify_search_fields_spec c7_dt c7_coas c7_pages).2.2.2.2.1
     c7_coa_fail (by decide) (by decide) (Or.inl (by decide))⟩

end LegalRag
